import Mathlib

/-!
Verification development for the go-lager log-line composition engine
(`buffer.go`): a per-line scratch buffer with pooled reuse, a JSON escaper,
a type-dispatching scalar encoder, and the overflow/locking protocol that
keeps log lines from interleaving on the output stream.

The embedding below is a shallow model of the Go source.  Bytes are `Nat`
(values < 256 in the real program), Go strings and byte slices are
`List Nat`, and the buffer's interactions with the process-wide output
mutex `outMu` and the output stream `b.w` are recorded in an explicit
event trace (`Ev`), so that locking-protocol and write-count claims can be
stated about the sequence of externally visible actions.
-/

namespace Lager

/-! ### Decimal and padding helpers (model of `strconv.AppendInt` output) -/

/-- Decimal digits (ASCII) of a natural number, most significant first.
Fuel-based so that the definition is structurally recursive and hence
kernel-reducible; `decDigits` supplies sufficient fuel. -/
def decDigitsAux : Nat → Nat → List Nat
  | 0, _ => []
  | fuel + 1, n => if n < 10 then [48 + n] else decDigitsAux fuel (n / 10) ++ [48 + n % 10]

/-- Decimal digits (ASCII bytes) of a natural number. -/
def decDigits (n : Nat) : List Nat := decDigitsAux (n + 1) n

/-- The bytes appended by `strconv.AppendInt(_, i, 10)`: a minus sign for
negative values followed by the decimal digits, no leading zeros. -/
def intBytes (i : Int) : List Nat :=
  if i < 0 then 45 :: decDigits i.natAbs else decDigits i.natAbs

/-- Left-pad a byte list with ASCII `'0'` (48) to a minimum width.  This is
the net effect of the copy-and-prefix loop in `buffer.int` (which renders
the value and then shifts it right, filling the gap with `'0'`). -/
def padZero (digits : Nat) (l : List Nat) : List Nat :=
  List.replicate (digits - l.length) 48 ++ l

/-- Concatenation of a list of byte lists. -/
def cat : List (List Nat) → List Nat
  | [] => []
  | x :: l => x ++ cat l

@[simp] theorem cat_nil : cat [] = [] := rfl

@[simp] theorem cat_cons (x : List Nat) (l : List (List Nat)) :
    cat (x :: l) = x ++ cat l := rfl

@[simp] theorem cat_append (l1 l2 : List (List Nat)) :
    cat (l1 ++ l2) = cat l1 ++ cat l2 := by
  induction l1 with
  | nil => simp
  | cons x l ih => simp [ih]

/-! ### The buffer state and its event trace -/

/-- Externally visible events of one buffer: acquiring/releasing the
process-wide output mutex `outMu`, and a single `Write` call to the output
stream `b.w` carrying the given bytes. -/
inductive Ev where
  | lockAcq : Ev
  | lockRel : Ev
  | wr : List Nat → Ev
deriving DecidableEq

/-- The bytes a single event delivers to the output stream. -/
def Ev.bytes : Ev → List Nat
  | .wr s => s
  | _ => []

/-- Whether an event is a stream write. -/
def Ev.isWr : Ev → Bool
  | .wr _ => true
  | _ => false

/-- Model of the Go `buffer` struct.  `cap` models `cap(b.buf)` (the fixed
size of the backing `scratch` array, 16*1024 in the source); `buf` holds
the bytes not yet written; `delim` is the pending delimiter; `locked`
mirrors the `locked` flag.  The writer `b.w` and the mutex `outMu` are
modelled by the event `trace` instead of being stored. -/
structure Buffer where
  cap : Nat
  buf : List Nat
  delim : List Nat
  locked : Bool
  trace : List Ev
deriving DecidableEq

/-- Size of the `scratch` backing array: `[16*1024]byte`. -/
def scratchCap : Nat := 16 * 1024

/-- A buffer as produced by `bufPool.New`: empty cursor over the scratch
array, zero-valued `delim` and `locked`, no events yet. -/
def newBuffer : Buffer :=
  { cap := scratchCap, buf := [], delim := [], locked := false, trace := [] }

/-- Model of `const comma = ", "` — the (JSON) delimiter between values. -/
def comma : List Nat := [44, 32]

/-- All bytes the buffer has pushed toward the output stream so far,
whether already written (in the trace) or still buffered. -/
def emitted (b : Buffer) : List Nat := cat (b.trace.map Ev.bytes) ++ b.buf

/-! ### Lock / unlock / raw writes -/

/-- Model of `buffer.lock`: called to flush early; acquires `outMu` if not already
held, then writes any buffered bytes and resets the cursor. -/
def lock (b : Buffer) : Buffer :=
  let b1 := if b.locked then b else { b with locked := true, trace := b.trace ++ [Ev.lockAcq] }
  if 0 < b1.buf.length then { b1 with trace := b1.trace ++ [Ev.wr b1.buf], buf := [] } else b1

/-- Model of `buffer.unlock`: called when finished composing a log line; writes any
remaining buffered bytes, then releases `outMu` if it was held. -/
def unlock (b : Buffer) : Buffer :=
  let b1 := if 0 < b.buf.length then { b with trace := b.trace ++ [Ev.wr b.buf], buf := [] } else b
  if b1.locked then { b1 with locked := false, trace := b1.trace ++ [Ev.lockRel] } else b1

/-- Model of `buffer.writeBytes`: append a byte slice, locking and flushing first if
it does not fit, and writing it directly if it alone exceeds the scratch
capacity. -/
def writeBytes (b : Buffer) (s : List Nat) : Buffer :=
  let b1 := if b.cap < b.buf.length + s.length then lock b else b
  if b1.cap < s.length then { b1 with trace := b1.trace ++ [Ev.wr s] }
  else { b1 with buf := b1.buf ++ s }

/-- One iteration of the loop in `buffer.write` (the body run for a single
string argument); the copy loop nets to an append. -/
def write1 (b : Buffer) (s : List Nat) : Buffer :=
  let b1 := if b.cap < b.buf.length + s.length then lock b else b
  if b1.cap < s.length then { b1 with trace := b1.trace ++ [Ev.wr s] }
  else { b1 with buf := b1.buf ++ s }

/-- Model of `buffer.write`: append each of the argument strings in order. -/
def write (b : Buffer) (strs : List (List Nat)) : Buffer := strs.foldl write1 b

/-! ### The escaper -/

/-- The `noEsc` table as filled by `init()`: `true` for every byte from
`' '` (32) up, except `'"'` (34) and `'\'` (92). -/
def noEsc (c : Nat) : Bool := 32 ≤ c && c != 34 && c != 92

/-- The characters of `hexDigits = "0123456789abcdef"`. -/
def hexDigitsB : List Nat := [48, 49, 50, 51, 52, 53, 54, 55, 56, 57, 97, 98, 99, 100, 101, 102]

/-- Lookup `hexDigits[h]` in the lowercase hex digit table. -/
def hexDig (h : Nat) : Nat := hexDigitsB.getD h 48

/-- The replacement for one byte that must be escaped: the `switch` in
`buffer.escape`.  In the default branch the source fills the four positions
of `\u0000` with the nibbles of `c` from least significant upward
(`buf[5] = c%16`, `buf[4] = c/16%16`, `buf[3] = c/256%16`,
`buf[2] = c/4096%16`). -/
def escSeq (c : Nat) : List Nat :=
  if c = 34 then [92, 34]
  else if c = 92 then [92, 92]
  else if c = 8 then [92, 98]
  else if c = 12 then [92, 102]
  else if c = 10 then [92, 110]
  else if c = 13 then [92, 114]
  else if c = 9 then [92, 116]
  else [92, 117, hexDig (c / 4096 % 16), hexDig (c / 256 % 16), hexDig (c / 16 % 16), hexDig (c % 16)]

/-- What one input byte contributes to the escaped output. -/
def escByte (c : Nat) : List Nat := if noEsc c then [c] else escSeq c

/-- The full escaped form of a byte string. -/
def escBytes (s : List Nat) : List Nat := cat (s.map escByte)

/-- The loop of `buffer.escape`.  The source keeps indices `beg ≤ i` into
`s` and writes the maximal unescaped run `s[beg:i]` before each escape
sequence and once after the loop; here the pending run `s[beg:i]` is
carried explicitly as `run` and the remaining input `s[i:]` as the third
argument, which makes the recursion structural. -/
def escLoop (b : Buffer) (run : List Nat) : List Nat → Buffer
  | [] => write1 b run
  | c :: rest =>
    if noEsc c then escLoop b (run ++ [c]) rest
    else escLoop (write1 (write1 b run) (escSeq c)) [] rest

/-- Model of `buffer.escape`: append the escaped form of a string. -/
def escape (b : Buffer) (s : List Nat) : Buffer := escLoop b [] s

/-- The loop of `buffer.escapeBytes`: identical to `escape` except that the
unescaped runs are appended with `writeBytes`. -/
def escBLoop (b : Buffer) (run : List Nat) : List Nat → Buffer
  | [] => writeBytes b run
  | c :: rest =>
    if noEsc c then escBLoop b (run ++ [c]) rest
    else escBLoop (write1 (writeBytes b run) (escSeq c)) [] rest

/-- Model of `buffer.escapeBytes`: append the escaped form of a byte slice. -/
def escapeBytes (b : Buffer) (s : List Nat) : Buffer := escBLoop b [] s

/-! ### Quoting, numeric and timestamp formatting, structural writer -/

/-- Model of `buffer.quote`: delimiter, opening quote, escaped body, closing quote,
and the pending delimiter becomes `comma`. -/
def quote (b : Buffer) (s : List Nat) : Buffer :=
  { write1 (escape (write b [b.delim, [34]]) s) [34] with delim := comma }

/-- Model of `buffer.quoteBytes`: like `quote` but from a byte slice, and (as in the
source) without updating the pending delimiter. -/
def quoteBytes (b : Buffer) (s : List Nat) : Buffer :=
  write1 (escapeBytes (write b [b.delim, [34]]) s) [34]

/-- Model of `buffer.int2`: append exactly two bytes `'0'+val/10, '0'+val%10`
(Go `byte` arithmetic wraps modulo 256). -/
def int2 (b : Buffer) (v : Nat) : Buffer :=
  { b with buf := b.buf ++ [(48 + v / 10 % 256) % 256, (48 + v % 10) % 256] }

/-- Model of `buffer.int`: append the decimal rendering of `val` left-padded with
`'0'` to the requested number of digits. -/
def intN (b : Buffer) (val : Int) (digits : Nat) : Buffer :=
  { b with buf := b.buf ++ padZero digits (intBytes val) }

/-- The UTC components of `time.Now().In(time.UTC)` used by
`buffer.timestamp`. -/
structure UTCTime where
  year : Nat
  month : Nat
  day : Nat
  hour : Nat
  minute : Nat
  second : Nat
  nsec : Nat
deriving DecidableEq

/-- The headroom check at the top of `buffer.timestamp`: lock and flush
unless 22 more bytes fit. -/
def tsLock (b : Buffer) : Buffer :=
  if b.cap < b.buf.length + 22 then lock b else b

/-- The `b.buf = strconv.AppendInt(b.buf, int64(yr), 10)` step of
`buffer.timestamp`. -/
def yearApp (b : Buffer) (y : Nat) : Buffer :=
  { b with buf := b.buf ++ intBytes (y : Int) }

/-- The `b.delim = comma` finishing step shared by `quote` and
`timestamp`. -/
def setComma (b : Buffer) : Buffer := { b with delim := comma }

/-- Model of `buffer.timestamp`: quoted `YYYY-MM-DD HH:MM:SS.mmmZ` at the given
instant, with a 22-byte headroom check up front: the opening quote, the
year via `AppendInt`, `-`, 2-digit month, `-`, 2-digit day, space, 2-digit
hour, `:`, minute, `:`, second, `.`, 3-digit zero-padded milliseconds and
the closing `Z"`; the pending delimiter becomes `comma`. -/
def timestamp (b : Buffer) (now : UTCTime) : Buffer :=
  setComma (write1 (intN (write1 (int2 (write1 (int2 (write1 (int2 (write1 (int2
    (write1 (int2 (write1 (yearApp (write1 (tsLock b) [34]) now.year) [45])
    now.month) [45]) now.day) [32]) now.hour) [58]) now.minute) [58]) now.second)
    [46]) ((now.nsec / 1000000 : Nat) : Int) 3) [90, 34])

/-- Model of `buffer.open`: pending delimiter, opening punctuation, and the pending
delimiter resets to `""`.  (Named `openB` because `open` is a Lean
keyword.) -/
def openB (b : Buffer) (punct : List Nat) : Buffer :=
  { write b [b.delim, punct] with delim := [] }

/-- Model of `buffer.colon`: emit `":"` and reset the pending delimiter. -/
def colonB (b : Buffer) : Buffer :=
  { write b [[58]] with delim := [] }

/-- Model of `buffer.close`: emit the closing punctuation; the pending delimiter
becomes `comma`. -/
def closeB (b : Buffer) (punct : List Nat) : Buffer :=
  { write b [punct] with delim := comma }

/-! ### Loggable values and the scalar encoder

The Go encoder dispatches on `interface{}`.  We embed the dispatched
shapes as a closed inductive: `nil`, `string`, `[]byte`, the signed and
unsigned integer widths (whose encodings coincide with `AppendInt` /
`AppendUint` on the value), `bool`, `[]string`, `AList`, `RawMap`,
`AMap` (nil or with its parallel `keys`/`vals` slices), and `error`.
The `float32`/`float64` cases (shortest round-trip formatting), the sorted
`map[string]interface{}` fallback and the reflective `json.Marshal`
default are outside the model: no claim depends on them. -/

mutual
inductive Val where
  | vnull : Val
  | vstr : List Nat → Val
  | vbytes : List Nat → Val
  | vint : Int → Val
  | vuint : Nat → Val
  | vbool : Bool → Val
  | vstrs : List (List Nat) → Val
  | vlist : ValList → Val
  | vrawmap : ValList → Val
  | vamapNil : Val
  | vamap : List (List Nat) → ValList → Val
  | verr : List Nat → Val

inductive ValList where
  | nil : ValList
  | cons : Val → ValList → ValList
end

/-- Length of a `ValList` (Go `len`). -/
def ValList.length : ValList → Nat
  | .nil => 0
  | .cons _ l => 1 + l.length

/-- Append on `ValList`. -/
def ValList.append : ValList → ValList → ValList
  | .nil, ys => ys
  | .cons x xs, ys => .cons x (xs.append ys)

/-- Modelled from the spec: the text-conversion function `S` applied to
`RawMap` keys (`b.quote(S(elt))`) is not among the provided source files;
the spec says Flat Alternating List keys "are encoded as quoted text even
if not already text".  We model it as the identity on text and a plain
decimal/boolean/null rendering on the other scalar shapes. -/
def S : Val → List Nat
  | .vstr s => s
  | .vbytes s => s
  | .vint i => intBytes i
  | .vuint n => decDigits n
  | .vbool true => [116, 114, 117, 101]
  | .vbool false => [102, 97, 108, 115, 101]
  | .vnull => [110, 117, 108, 108]
  | _ => [63]

/-- The headroom check at the top of `buffer.scalar`: leave at least 64
bytes of room (for `strconv.AppendFloat` and similar), locking and
flushing if not available. -/
def ensureRoom (b : Buffer) : Buffer :=
  if b.cap < b.buf.length + 64 then lock b else b

/-- The prelude shared by every non-skipped `scalar` case: write the
pending delimiter, clear it, and ensure 64 bytes of headroom. -/
def begScalar (b : Buffer) : Buffer :=
  ensureRoom { write1 b b.delim with delim := [] }

/-- The postlude of `buffer.scalar`: the pending delimiter becomes
`comma`. -/
def endScalar (b : Buffer) : Buffer := { b with delim := comma }

/-- The `case nil` body of `buffer.scalar` (also invoked for the odd
trailing `RawMap` element via `b.scalar(nil)`). -/
def scalarNullV (b : Buffer) : Buffer :=
  endScalar (write1 (begScalar b) [110, 117, 108, 108])

/-- The `case string` body of `buffer.scalar` (also invoked for each
element of a `[]string`). -/
def scalarStr (b : Buffer) (s : List Nat) : Buffer :=
  endScalar (quote (begScalar b) s)

/-- The `case []string` loop: each element goes through `b.scalar`. -/
def strsGo (b : Buffer) (l : List (List Nat)) : Buffer := l.foldl scalarStr b

mutual
/-- Model of `buffer.scalar`: append a JSON-encoded value.  A `nil` or empty `AMap`
returns at once, before the delimiter is written; every other case writes
the pending delimiter, ensures headroom, appends its encoding and leaves
the pending delimiter at `comma`. -/
def scalar : Buffer → Val → Buffer
  | b, .vamapNil => b
  | b, .vamap [] _ => b
  | b, .vnull => scalarNullV b
  | b, .vstr s => scalarStr b s
  | b, .vbytes s => endScalar (quoteBytes (begScalar b) s)
  | b, .vint i =>
    let b1 := begScalar b
    endScalar { b1 with buf := b1.buf ++ intBytes i }
  | b, .vuint n =>
    let b1 := begScalar b
    endScalar { b1 with buf := b1.buf ++ decDigits n }
  | b, .vbool true => endScalar (write1 (begScalar b) [116, 114, 117, 101])
  | b, .vbool false => endScalar (write1 (begScalar b) [102, 97, 108, 115, 101])
  | b, .vstrs l => endScalar (closeB (strsGo (openB (begScalar b) [91]) l) [93])
  | b, .vlist l => endScalar (closeB (scalarList (openB (begScalar b) [91]) l) [93])
  | b, .vrawmap l =>
    let b1 := rawGo (openB (begScalar b) [123]) 0 l
    let b2 := if l.length % 2 = 1 then scalarNullV b1 else b1
    endScalar (closeB b2 [125])
  | b, .vamap (k :: ks) vs =>
    endScalar (closeB (pairsGo (openB (begScalar b) [123]) (k :: ks) vs) [125])
  | b, .verr msg => endScalar (quote (begScalar b) msg)

/-- The `case AList` loop: `for _, s := range v { b.scalar(s) }`. -/
def scalarList : Buffer → ValList → Buffer
  | b, .nil => b
  | b, .cons v vs => scalarList (scalar b v) vs

/-- Model of the `buffer.pairs` iteration: `b.pair(k, m.vals[i])` for each key.  (Go
would panic if `vals` were shorter than `keys`; an `AMap` always has
parallel slices, so the truncating recursion is only exercised on equal
lengths.) -/
def pairsGo : Buffer → List (List Nat) → ValList → Buffer
  | b, [], _ => b
  | b, _ :: _, .nil => b
  | b, k :: ks, .cons v vs => pairsGo (scalar (colonB (quote b k)) v) ks vs

/-- The `case RawMap` loop: elements at even index are keys
(`b.quote(S(elt)); b.colon()`), elements at odd index are values
(`b.scalar(elt)`). -/
def rawGo : Buffer → Nat → ValList → Buffer
  | b, _, .nil => b
  | b, i, .cons v vs =>
    if i % 2 = 0 then rawGo (colonB (quote b (S v))) (i + 1) vs
    else rawGo (scalar b v) (i + 1) vs
end

/-- Model of `buffer.pair`: quoted key, colon, scalar value. -/
def pairB (b : Buffer) (k : List Nat) (v : Val) : Buffer :=
  scalar (colonB (quote b k)) v

/-! ### Byte-stream characterization of the primitive operations

`emitted` (written bytes plus still-buffered bytes) is unchanged by
flushing and locking, and grows by exactly the appended bytes on every
append; the scratch capacity is never changed. -/

theorem lock_emitted (b : Buffer) : emitted (lock b) = emitted b := by
  unfold lock
  by_cases hl : b.locked <;> by_cases hb : 0 < b.buf.length <;>
    simp_all [emitted, Ev.bytes]

theorem lock_delim (b : Buffer) : (lock b).delim = b.delim := by
  unfold lock
  by_cases hl : b.locked <;> by_cases hb : 0 < b.buf.length <;> simp_all

theorem lock_cap (b : Buffer) : (lock b).cap = b.cap := by
  unfold lock
  by_cases hl : b.locked <;> by_cases hb : 0 < b.buf.length <;> simp_all

theorem lock_buf (b : Buffer) : (lock b).buf = [] := by
  unfold lock
  by_cases hl : b.locked <;> by_cases hb : 0 < b.buf.length <;>
    simp_all [List.length_eq_zero]

theorem lock_locked (b : Buffer) : (lock b).locked = true := by
  unfold lock
  by_cases hl : b.locked <;> by_cases hb : 0 < b.buf.length <;> simp_all

theorem write1_emitted (b : Buffer) (s : List Nat) :
    emitted (write1 b s) = emitted b ++ s := by
  unfold write1
  by_cases h1 : b.cap < b.buf.length + s.length
  · simp only [h1, if_true]
    by_cases h2 : (lock b).cap < s.length
    · simp only [h2, if_true]
      have hb := lock_buf b
      have he := lock_emitted b
      rw [emitted, emitted, hb, List.append_nil] at he
      simp [emitted, Ev.bytes, hb, he]
    · simp only [h2, if_false]
      have he := lock_emitted b
      simp [emitted, Ev.bytes] at he ⊢
      simp [← List.append_assoc, he]
  · simp only [h1, if_false]
    have h2 : ¬b.cap < s.length := by omega
    simp [h2, emitted]

theorem write1_delim (b : Buffer) (s : List Nat) : (write1 b s).delim = b.delim := by
  unfold write1
  by_cases h1 : b.cap < b.buf.length + s.length <;>
    simp only [h1, if_true, if_false] <;> split <;> simp [lock_delim]

theorem write1_cap (b : Buffer) (s : List Nat) : (write1 b s).cap = b.cap := by
  unfold write1
  by_cases h1 : b.cap < b.buf.length + s.length <;>
    simp only [h1, if_true, if_false] <;> split <;> simp [lock_cap]

theorem writeBytes_emitted (b : Buffer) (s : List Nat) :
    emitted (writeBytes b s) = emitted b ++ s := write1_emitted b s

theorem writeBytes_delim (b : Buffer) (s : List Nat) : (writeBytes b s).delim = b.delim :=
  write1_delim b s

theorem writeBytes_cap (b : Buffer) (s : List Nat) : (writeBytes b s).cap = b.cap :=
  write1_cap b s

theorem write_emitted (strs : List (List Nat)) : ∀ b : Buffer,
    emitted (write b strs) = emitted b ++ cat strs := by
  induction strs with
  | nil => intro b; simp [write]
  | cons s rest ih =>
    intro b
    have h0 : write b (s :: rest) = write (write1 b s) rest := rfl
    rw [h0, ih (write1 b s), write1_emitted]
    simp

theorem write_delim (strs : List (List Nat)) : ∀ b : Buffer,
    (write b strs).delim = b.delim := by
  induction strs with
  | nil => intro b; rfl
  | cons s rest ih =>
    intro b
    have h0 : write b (s :: rest) = write (write1 b s) rest := rfl
    rw [h0, ih (write1 b s), write1_delim]

theorem write_cap (strs : List (List Nat)) : ∀ b : Buffer,
    (write b strs).cap = b.cap := by
  induction strs with
  | nil => intro b; rfl
  | cons s rest ih =>
    intro b
    have h0 : write b (s :: rest) = write (write1 b s) rest := rfl
    rw [h0, ih (write1 b s), write1_cap]

theorem escLoop_emitted (rest : List Nat) : ∀ (b : Buffer) (run : List Nat),
    emitted (escLoop b run rest) = emitted b ++ run ++ escBytes rest := by
  induction rest with
  | nil => intro b run; simp [escLoop, write1_emitted, escBytes]
  | cons c rest ih =>
    intro b run
    unfold escLoop
    split
    case isTrue h => simp [ih, escBytes, escByte, h]
    case isFalse h => simp [ih, write1_emitted, escBytes, escByte, h]

theorem escLoop_delim (rest : List Nat) : ∀ (b : Buffer) (run : List Nat),
    (escLoop b run rest).delim = b.delim := by
  induction rest with
  | nil => intro b run; simp [escLoop, write1_delim]
  | cons c rest ih =>
    intro b run
    unfold escLoop
    split <;> simp [ih, write1_delim]

theorem escLoop_cap (rest : List Nat) : ∀ (b : Buffer) (run : List Nat),
    (escLoop b run rest).cap = b.cap := by
  induction rest with
  | nil => intro b run; simp [escLoop, write1_cap]
  | cons c rest ih =>
    intro b run
    unfold escLoop
    split <;> simp [ih, write1_cap]

theorem escape_emitted (b : Buffer) (s : List Nat) :
    emitted (escape b s) = emitted b ++ escBytes s := by
  simp [escape, escLoop_emitted]

theorem escape_delim (b : Buffer) (s : List Nat) : (escape b s).delim = b.delim :=
  escLoop_delim s b []

theorem escape_cap (b : Buffer) (s : List Nat) : (escape b s).cap = b.cap :=
  escLoop_cap s b []

theorem escBLoop_emitted (rest : List Nat) : ∀ (b : Buffer) (run : List Nat),
    emitted (escBLoop b run rest) = emitted b ++ run ++ escBytes rest := by
  induction rest with
  | nil => intro b run; simp [escBLoop, writeBytes_emitted, escBytes]
  | cons c rest ih =>
    intro b run
    unfold escBLoop
    split
    case isTrue h => simp [ih, escBytes, escByte, h]
    case isFalse h => simp [ih, write1_emitted, writeBytes_emitted, escBytes, escByte, h]

theorem escBLoop_delim (rest : List Nat) : ∀ (b : Buffer) (run : List Nat),
    (escBLoop b run rest).delim = b.delim := by
  induction rest with
  | nil => intro b run; simp [escBLoop, writeBytes_delim]
  | cons c rest ih =>
    intro b run
    unfold escBLoop
    split <;> simp [ih, write1_delim, writeBytes_delim]

theorem escBLoop_cap (rest : List Nat) : ∀ (b : Buffer) (run : List Nat),
    (escBLoop b run rest).cap = b.cap := by
  induction rest with
  | nil => intro b run; simp [escBLoop, writeBytes_cap]
  | cons c rest ih =>
    intro b run
    unfold escBLoop
    split <;> simp [ih, write1_cap, writeBytes_cap]

theorem escapeBytes_emitted (b : Buffer) (s : List Nat) :
    emitted (escapeBytes b s) = emitted b ++ escBytes s := by
  simp [escapeBytes, escBLoop_emitted]

theorem escapeBytes_delim (b : Buffer) (s : List Nat) : (escapeBytes b s).delim = b.delim :=
  escBLoop_delim s b []

theorem escapeBytes_cap (b : Buffer) (s : List Nat) : (escapeBytes b s).cap = b.cap :=
  escBLoop_cap s b []

theorem quote_emitted (b : Buffer) (s : List Nat) :
    emitted (quote b s) = emitted b ++ b.delim ++ [34] ++ escBytes s ++ [34] := by
  have h0 : emitted (quote b s)
      = emitted (write1 (escape (write1 (write1 b b.delim) [34]) s) [34]) := rfl
  rw [h0, write1_emitted, escape_emitted, write1_emitted, write1_emitted]

theorem quote_delim (b : Buffer) (s : List Nat) : (quote b s).delim = comma := rfl

theorem quote_cap (b : Buffer) (s : List Nat) : (quote b s).cap = b.cap := by
  simp [quote, write, write1_cap, escape_cap]

theorem quoteBytes_emitted (b : Buffer) (s : List Nat) :
    emitted (quoteBytes b s) = emitted b ++ b.delim ++ [34] ++ escBytes s ++ [34] := by
  simp [quoteBytes, write]
  rw [write1_emitted, escapeBytes_emitted, write1_emitted, write1_emitted]
  simp

theorem quoteBytes_delim (b : Buffer) (s : List Nat) : (quoteBytes b s).delim = b.delim := by
  simp [quoteBytes, write, write1_delim, escapeBytes_delim]

theorem quoteBytes_cap (b : Buffer) (s : List Nat) : (quoteBytes b s).cap = b.cap := by
  simp [quoteBytes, write, write1_cap, escapeBytes_cap]

theorem int2_emitted (b : Buffer) (v : Nat) :
    emitted (int2 b v) = emitted b ++ [(48 + v / 10 % 256) % 256, (48 + v % 10) % 256] := by
  simp [int2, emitted]

theorem intN_emitted (b : Buffer) (val : Int) (digits : Nat) :
    emitted (intN b val digits) = emitted b ++ padZero digits (intBytes val) := by
  simp [intN, emitted]

theorem openB_emitted (b : Buffer) (p : List Nat) :
    emitted (openB b p) = emitted b ++ b.delim ++ p := by
  simp [openB, write, emitted]
  rw [show (write1 (write1 b b.delim) p).buf
      = ((write1 (write1 b b.delim) p).buf) from rfl]
  have := write1_emitted (write1 b b.delim) p
  rw [write1_emitted b b.delim] at this
  simpa [emitted] using this

theorem openB_delim (b : Buffer) (p : List Nat) : (openB b p).delim = [] := rfl

theorem openB_cap (b : Buffer) (p : List Nat) : (openB b p).cap = b.cap := by
  simp [openB, write, write1_cap]

theorem colonB_emitted (b : Buffer) :
    emitted (colonB b) = emitted b ++ [58] := by
  have := write1_emitted b [58]
  simpa [colonB, write, emitted] using this

theorem colonB_delim (b : Buffer) : (colonB b).delim = [] := rfl

theorem colonB_cap (b : Buffer) : (colonB b).cap = b.cap := by
  simp [colonB, write, write1_cap]

theorem closeB_emitted (b : Buffer) (p : List Nat) :
    emitted (closeB b p) = emitted b ++ p := by
  have := write1_emitted b p
  simpa [closeB, write, emitted] using this

theorem closeB_delim (b : Buffer) (p : List Nat) : (closeB b p).delim = comma := rfl

theorem closeB_cap (b : Buffer) (p : List Nat) : (closeB b p).cap = b.cap := by
  simp [closeB, write, write1_cap]

theorem ensureRoom_emitted (b : Buffer) : emitted (ensureRoom b) = emitted b := by
  unfold ensureRoom
  split <;> simp [lock_emitted]

theorem ensureRoom_delim (b : Buffer) : (ensureRoom b).delim = b.delim := by
  unfold ensureRoom
  split <;> simp [lock_delim]

theorem ensureRoom_cap (b : Buffer) : (ensureRoom b).cap = b.cap := by
  unfold ensureRoom
  split <;> simp [lock_cap]

theorem begScalar_emitted (b : Buffer) :
    emitted (begScalar b) = emitted b ++ b.delim := by
  simp [begScalar, ensureRoom_emitted, write1_emitted, emitted]
  have h := ensureRoom_emitted { write1 b b.delim with delim := ([] : List Nat) }
  rw [show emitted { write1 b b.delim with delim := ([] : List Nat) }
      = emitted (write1 b b.delim) from rfl, write1_emitted] at h
  simpa [emitted] using h

theorem begScalar_delim (b : Buffer) : (begScalar b).delim = [] := by
  simp [begScalar]
  have := ensureRoom_delim { write1 b b.delim with delim := ([] : List Nat) }
  simpa using this

theorem begScalar_cap (b : Buffer) : (begScalar b).cap = b.cap := by
  simp [begScalar]
  have := ensureRoom_cap { write1 b b.delim with delim := ([] : List Nat) }
  simpa [write1_cap] using this

theorem endScalar_emitted (b : Buffer) : emitted (endScalar b) = emitted b := rfl

theorem endScalar_delim (b : Buffer) : (endScalar b).delim = comma := rfl

theorem endScalar_cap (b : Buffer) : (endScalar b).cap = b.cap := rfl

theorem scalarNullV_emitted (b : Buffer) :
    emitted (scalarNullV b) = emitted b ++ b.delim ++ [110, 117, 108, 108] := by
  have h0 : emitted (scalarNullV b)
      = emitted (write1 (begScalar b) [110, 117, 108, 108]) := rfl
  rw [h0, write1_emitted, begScalar_emitted]

theorem scalarNullV_delim (b : Buffer) : (scalarNullV b).delim = comma := rfl

theorem scalarNullV_cap (b : Buffer) : (scalarNullV b).cap = b.cap := by
  have h0 : (scalarNullV b).cap = (write1 (begScalar b) [110, 117, 108, 108]).cap := rfl
  rw [h0, write1_cap, begScalar_cap]

theorem scalarStr_emitted (b : Buffer) (s : List Nat) :
    emitted (scalarStr b s) = emitted b ++ b.delim ++ [34] ++ escBytes s ++ [34] := by
  have h0 : emitted (scalarStr b s) = emitted (quote (begScalar b) s) := rfl
  rw [h0, quote_emitted, begScalar_emitted, begScalar_delim]
  simp

theorem scalarStr_delim (b : Buffer) (s : List Nat) : (scalarStr b s).delim = comma := rfl

theorem scalarStr_cap (b : Buffer) (s : List Nat) : (scalarStr b s).cap = b.cap := by
  have h0 : (scalarStr b s).cap = (quote (begScalar b) s).cap := rfl
  rw [h0, quote_cap, begScalar_cap]

/-! ### Pure mirrors of the encoder

`encV d v` is the byte string `buffer.scalar` appends when the pending
delimiter is `d`; `encD d v` is the pending delimiter afterwards.  The
`.2` components of `encList`/`encPairs`/`encRaw` carry the pending
delimiter across a container body (needed because a skipped empty `AMap`
value leaves the delimiter unchanged). -/

/-- Pending delimiter after `buffer.scalar`: unchanged for a skipped
(nil/empty) `AMap`, `comma` otherwise. -/
def encD (d : List Nat) (v : Val) : List Nat :=
  match v with
  | .vamapNil => d
  | .vamap [] _ => d
  | _ => comma

/-- Bytes of a `[]string` body: each element quoted, separated by the
pending delimiter (empty before the first, `comma` after each). -/
def encStrs : List Nat → List (List Nat) → List Nat
  | _, [] => []
  | d, s :: rest => d ++ [34] ++ escBytes s ++ [34] ++ encStrs comma rest

mutual
/-- Bytes appended by `buffer.scalar` at pending delimiter `d`. -/
def encV : List Nat → Val → List Nat
  | _, .vamapNil => []
  | _, .vamap [] _ => []
  | d, .vnull => d ++ [110, 117, 108, 108]
  | d, .vstr s => d ++ [34] ++ escBytes s ++ [34]
  | d, .vbytes s => d ++ [34] ++ escBytes s ++ [34]
  | d, .vint i => d ++ intBytes i
  | d, .vuint n => d ++ decDigits n
  | d, .vbool true => d ++ [116, 114, 117, 101]
  | d, .vbool false => d ++ [102, 97, 108, 115, 101]
  | d, .vstrs l => d ++ [91] ++ encStrs [] l ++ [93]
  | d, .vlist l => d ++ [91] ++ (encList [] l).1 ++ [93]
  | d, .vrawmap l =>
    d ++ [123] ++ (encRaw [] 0 l).1 ++
      (if l.length % 2 = 1 then (encRaw [] 0 l).2 ++ [110, 117, 108, 108] else []) ++ [125]
  | d, .vamap (k :: ks) vs => d ++ [123] ++ (encPairs [] (k :: ks) vs).1 ++ [125]
  | d, .verr msg => d ++ [34] ++ escBytes msg ++ [34]

/-- Bytes and final pending delimiter of an `AList` body. -/
def encList : List Nat → ValList → List Nat × List Nat
  | d, .nil => ([], d)
  | d, .cons v vs =>
    let r := encList (encD d v) vs
    (encV d v ++ r.1, r.2)

/-- Bytes and final pending delimiter of an `AMap` body. -/
def encPairs : List Nat → List (List Nat) → ValList → List Nat × List Nat
  | d, [], _ => ([], d)
  | d, _ :: _, .nil => ([], d)
  | d, k :: ks, .cons v vs =>
    let r := encPairs (encD [] v) ks vs
    (d ++ [34] ++ escBytes k ++ [34] ++ [58] ++ encV [] v ++ r.1, r.2)

/-- Bytes and final pending delimiter of a `RawMap` body (`i` is the
element index: even for keys, odd for values). -/
def encRaw : List Nat → Nat → ValList → List Nat × List Nat
  | d, _, .nil => ([], d)
  | d, i, .cons v vs =>
    if i % 2 = 0 then
      let r := encRaw [] (i + 1) vs
      (d ++ [34] ++ escBytes (S v) ++ [34] ++ [58] ++ r.1, r.2)
    else
      let r := encRaw (encD d v) (i + 1) vs
      (encV d v ++ r.1, r.2)
end

theorem strsGo_emitted (l : List (List Nat)) : ∀ b : Buffer,
    emitted (strsGo b l) = emitted b ++ encStrs b.delim l := by
  induction l with
  | nil => intro b; simp [strsGo, encStrs]
  | cons s rest ih =>
    intro b
    have h0 : strsGo b (s :: rest) = strsGo (scalarStr b s) rest := rfl
    have h1 := ih (scalarStr b s)
    rw [h0, h1, scalarStr_emitted, scalarStr_delim, encStrs]
    simp

theorem strsGo_delim (l : List (List Nat)) : ∀ b : Buffer,
    (strsGo b l).delim = if l.isEmpty then b.delim else comma := by
  induction l with
  | nil => intro b; simp [strsGo]
  | cons s rest ih =>
    intro b
    have h0 : strsGo b (s :: rest) = strsGo (scalarStr b s) rest := rfl
    rw [h0, ih (scalarStr b s)]
    by_cases h : rest.isEmpty <;> simp [h, scalarStr_delim]

theorem strsGo_cap (l : List (List Nat)) : ∀ b : Buffer,
    (strsGo b l).cap = b.cap := by
  induction l with
  | nil => intro b; simp [strsGo]
  | cons s rest ih =>
    intro b
    have h0 : strsGo b (s :: rest) = strsGo (scalarStr b s) rest := rfl
    rw [h0, ih (scalarStr b s), scalarStr_cap]

theorem bufExt_emitted (b : Buffer) (s : List Nat) :
    emitted { b with buf := b.buf ++ s } = emitted b ++ s := by
  simp [emitted]

theorem bufExt2_emitted (b : Buffer) (s : List Nat) (c : Nat) (d : List Nat) (lk : Bool) :
    emitted { cap := c, buf := b.buf ++ s, delim := d, locked := lk, trace := b.trace }
      = emitted b ++ s := by
  simp [emitted]

theorem reProj_emitted (b : Buffer) (c : Nat) (d : List Nat) (lk : Bool) :
    emitted { cap := c, buf := b.buf, delim := d, locked := lk, trace := b.trace }
      = emitted b := by
  simp [emitted]

attribute [simp] lock_emitted lock_delim lock_cap write1_emitted write1_delim
  write1_cap writeBytes_emitted writeBytes_delim writeBytes_cap escape_emitted
  escape_delim escape_cap escapeBytes_emitted escapeBytes_delim escapeBytes_cap
  quote_emitted quote_delim quote_cap quoteBytes_emitted quoteBytes_delim
  quoteBytes_cap int2_emitted intN_emitted openB_emitted openB_delim openB_cap
  colonB_emitted colonB_delim colonB_cap closeB_emitted closeB_delim closeB_cap
  ensureRoom_emitted ensureRoom_delim ensureRoom_cap begScalar_emitted
  begScalar_delim begScalar_cap endScalar_emitted endScalar_delim endScalar_cap
  scalarNullV_emitted scalarNullV_delim scalarNullV_cap scalarStr_emitted
  scalarStr_delim scalarStr_cap strsGo_emitted strsGo_delim strsGo_cap
  bufExt_emitted bufExt2_emitted reProj_emitted

/-! ### Master characterization: the buffer encoder against its pure
mirror.  Flushing and locking never change or reorder the emitted bytes:
`buffer.scalar` appends exactly `encV` and leaves the pending delimiter at
`encD`, whatever the buffer state. -/

mutual
theorem scalar_spec : ∀ (b : Buffer) (v : Val),
    emitted (scalar b v) = emitted b ++ encV b.delim v ∧
      (scalar b v).delim = encD b.delim v ∧ (scalar b v).cap = b.cap
  | b, .vamapNil => by simp [scalar, encV, encD]
  | b, .vamap [] vs => by simp [scalar, encV, encD]
  | b, .vnull => by simp [scalar, encV, encD]
  | b, .vstr s => by simp [scalar, encV, encD]
  | b, .vbytes s => by simp [scalar, encV, encD]
  | b, .vint i => by simp [scalar, encV, encD]
  | b, .vuint n => by simp [scalar, encV, encD]
  | b, .vbool true => by simp [scalar, encV, encD]
  | b, .vbool false => by simp [scalar, encV, encD]
  | b, .vstrs l => by simp [scalar, encV, encD]
  | b, .vlist l => by
    have ih := scalarList_spec (openB (begScalar b) [91]) l
    simp [scalar, encV, encD, ih.1, ih.2.1, ih.2.2]
  | b, .vrawmap l => by
    have ih := rawGo_spec (openB (begScalar b) [123]) 0 l
    by_cases hodd : l.length % 2 = 1 <;>
      simp [scalar, encV, encD, hodd, ih.1, ih.2.1, ih.2.2]
  | b, .vamap (k :: ks) vs => by
    have ih := pairsGo_spec (openB (begScalar b) [123]) (k :: ks) vs
    simp [scalar, encV, encD, ih.1, ih.2.1, ih.2.2]
  | b, .verr msg => by simp [scalar, encV, encD]

theorem scalarList_spec : ∀ (b : Buffer) (l : ValList),
    emitted (scalarList b l) = emitted b ++ (encList b.delim l).1 ∧
      (scalarList b l).delim = (encList b.delim l).2 ∧ (scalarList b l).cap = b.cap
  | b, .nil => by simp [scalarList, encList]
  | b, .cons v vs => by
    have ihv := scalar_spec b v
    have ih := scalarList_spec (scalar b v) vs
    simp [scalarList, encList, ih.1, ih.2.1, ih.2.2, ihv.1, ihv.2.1, ihv.2.2]

theorem pairsGo_spec : ∀ (b : Buffer) (ks : List (List Nat)) (vs : ValList),
    emitted (pairsGo b ks vs) = emitted b ++ (encPairs b.delim ks vs).1 ∧
      (pairsGo b ks vs).delim = (encPairs b.delim ks vs).2 ∧
      (pairsGo b ks vs).cap = b.cap
  | b, [], vs => by simp [pairsGo, encPairs]
  | b, k :: ks, .nil => by simp [pairsGo, encPairs]
  | b, k :: ks, .cons v vs => by
    have ihv := scalar_spec (colonB (quote b k)) v
    have ih := pairsGo_spec (scalar (colonB (quote b k)) v) ks vs
    simp [pairsGo, encPairs, ih.1, ih.2.1, ih.2.2, ihv.1, ihv.2.1, ihv.2.2]

theorem rawGo_spec : ∀ (b : Buffer) (i : Nat) (l : ValList),
    emitted (rawGo b i l) = emitted b ++ (encRaw b.delim i l).1 ∧
      (rawGo b i l).delim = (encRaw b.delim i l).2 ∧ (rawGo b i l).cap = b.cap
  | b, i, .nil => by simp [rawGo, encRaw]
  | b, i, .cons v vs => by
    by_cases hi : i % 2 = 0
    · have ih := rawGo_spec (colonB (quote b (S v))) (i + 1) vs
      simp [rawGo, encRaw, hi, ih.1, ih.2.1, ih.2.2]
    · have ihv := scalar_spec b v
      have ih := rawGo_spec (scalar b v) (i + 1) vs
      simp [rawGo, encRaw, hi, ih.1, ih.2.1, ih.2.2, ihv.1, ihv.2.1, ihv.2.2]
end

/-- The two bytes appended by `buffer.int2`. -/
def int2bytes (v : Nat) : List Nat := [(48 + v / 10 % 256) % 256, (48 + v % 10) % 256]

theorem int2_delim (b : Buffer) (v : Nat) : (int2 b v).delim = b.delim := rfl

theorem int2_cap (b : Buffer) (v : Nat) : (int2 b v).cap = b.cap := rfl

theorem intN_delim (b : Buffer) (val : Int) (digits : Nat) :
    (intN b val digits).delim = b.delim := rfl

theorem intN_cap (b : Buffer) (val : Int) (digits : Nat) :
    (intN b val digits).cap = b.cap := rfl

attribute [simp] int2_delim int2_cap intN_delim intN_cap

theorem tsLock_emitted (b : Buffer) : emitted (tsLock b) = emitted b := by
  unfold tsLock
  split <;> simp [lock_emitted]

theorem tsLock_delim (b : Buffer) : (tsLock b).delim = b.delim := by
  unfold tsLock
  split <;> simp [lock_delim]

theorem tsLock_cap (b : Buffer) : (tsLock b).cap = b.cap := by
  unfold tsLock
  split <;> simp [lock_cap]

theorem yearApp_emitted (b : Buffer) (y : Nat) :
    emitted (yearApp b y) = emitted b ++ intBytes (y : Int) := by
  simp [yearApp, emitted]

theorem yearApp_delim (b : Buffer) (y : Nat) : (yearApp b y).delim = b.delim := rfl

theorem yearApp_cap (b : Buffer) (y : Nat) : (yearApp b y).cap = b.cap := rfl

theorem setComma_emitted (b : Buffer) : emitted (setComma b) = emitted b := rfl

theorem setComma_delim (b : Buffer) : (setComma b).delim = comma := rfl

theorem setComma_cap (b : Buffer) : (setComma b).cap = b.cap := rfl

attribute [simp] tsLock_emitted tsLock_delim tsLock_cap yearApp_emitted
  yearApp_delim yearApp_cap setComma_emitted setComma_delim setComma_cap

theorem timestamp_emitted (b : Buffer) (t : UTCTime) :
    emitted (timestamp b t) = emitted b ++ [34] ++ intBytes (t.year : Int) ++ [45]
      ++ int2bytes t.month ++ [45] ++ int2bytes t.day ++ [32] ++ int2bytes t.hour
      ++ [58] ++ int2bytes t.minute ++ [58] ++ int2bytes t.second ++ [46]
      ++ padZero 3 (intBytes ((t.nsec / 1000000 : Nat) : Int)) ++ [90, 34] := by
  simp [timestamp, int2bytes]

theorem timestamp_delim (b : Buffer) (t : UTCTime) : (timestamp b t).delim = comma := rfl

theorem timestamp_cap (b : Buffer) (t : UTCTime) : (timestamp b t).cap = b.cap := by
  simp [timestamp]

/-! ### The locking-protocol invariant

While a line is being composed, the buffer's trace is either empty (never
flushed early: nothing has reached the stream yet, lock untouched) or a
single `lockAcq` followed only by stream writes (the first early flush
acquired the lock, which has been held ever since). -/

/-- All events in the list are stream writes. -/
def tailWr : List Ev → Bool
  | [] => true
  | e :: r => e.isWr && tailWr r

theorem tailWr_append (l1 l2 : List Ev) :
    tailWr (l1 ++ l2) = (tailWr l1 && tailWr l2) := by
  induction l1 with
  | nil => simp [tailWr]
  | cons e r ih => simp [tailWr, ih, Bool.and_assoc]

/-- The mid-composition invariant relating the lock flag and the trace. -/
def TraceInv (b : Buffer) : Prop :=
  (b.locked = false ∧ b.trace = []) ∨
  (b.locked = true ∧ ∃ rest, b.trace = Ev.lockAcq :: rest ∧ tailWr rest = true)

/-- The invariant only depends on the lock flag and the trace. -/
theorem TraceInv_congr (b b' : Buffer) (hl : b'.locked = b.locked)
    (ht : b'.trace = b.trace) (h : TraceInv b) : TraceInv b' := by
  rcases h with ⟨h1, h2⟩ | ⟨h1, rest, h2, h3⟩
  · exact Or.inl ⟨hl.trans h1, ht.trans h2⟩
  · exact Or.inr ⟨hl.trans h1, rest, ht.trans h2, h3⟩

theorem lock_inv (b : Buffer) (h : TraceInv b) : TraceInv (lock b) := by
  rcases h with ⟨hl, ht⟩ | ⟨hl, rest, ht, hw⟩
  · unfold lock
    by_cases hb : 0 < b.buf.length <;>
      simp only [hl, Bool.false_eq_true, if_false, hb, if_true, ht]
    · exact Or.inr ⟨rfl, [Ev.wr b.buf], by simp, by simp [tailWr, Ev.isWr]⟩
    · exact Or.inr ⟨rfl, [], by simp, by simp [tailWr]⟩
  · unfold lock
    by_cases hb : 0 < b.buf.length <;>
      simp only [hl, if_true, hb, if_false, ht]
    · exact Or.inr ⟨rfl, rest ++ [Ev.wr b.buf], by simp,
        by simp [tailWr_append, hw, tailWr, Ev.isWr]⟩
    · exact Or.inr ⟨hl, rest, ht, hw⟩

theorem write1_inv (b : Buffer) (s : List Nat) (h : TraceInv b) :
    TraceInv (write1 b s) := by
  unfold write1
  by_cases h1 : b.cap < b.buf.length + s.length
  · simp only [h1, if_true]
    have hli := lock_inv b h
    by_cases h2 : (lock b).cap < s.length
    · simp only [h2, if_true]
      have hlk := lock_locked b
      rcases hli with ⟨ha, _⟩ | ⟨ha, rest, hb2, hc⟩
      · rw [ha] at hlk; exact absurd hlk (by simp)
      · exact Or.inr ⟨ha, rest ++ [Ev.wr s], by simp [hb2],
          by simp [tailWr_append, hc, tailWr, Ev.isWr]⟩
    · simp only [h2, if_false]
      exact TraceInv_congr _ _ rfl rfl hli
  · simp only [h1, if_false]
    have h2 : ¬b.cap < s.length := by omega
    simp only [h2, if_false]
    exact TraceInv_congr _ _ rfl rfl h

theorem writeBytes_inv (b : Buffer) (s : List Nat) (h : TraceInv b) :
    TraceInv (writeBytes b s) := write1_inv b s h

theorem write_inv (strs : List (List Nat)) : ∀ b : Buffer, TraceInv b →
    TraceInv (write b strs) := by
  induction strs with
  | nil => intro b h; exact h
  | cons s rest ih =>
    intro b h
    exact ih (write1 b s) (write1_inv b s h)

theorem escLoop_inv (rest : List Nat) : ∀ (b : Buffer) (run : List Nat),
    TraceInv b → TraceInv (escLoop b run rest) := by
  induction rest with
  | nil => intro b run h; exact write1_inv b run h
  | cons c r ih =>
    intro b run h
    unfold escLoop
    split
    · exact ih b (run ++ [c]) h
    · exact ih _ [] (write1_inv _ _ (write1_inv _ _ h))

theorem escape_inv (b : Buffer) (s : List Nat) (h : TraceInv b) :
    TraceInv (escape b s) := escLoop_inv s b [] h

theorem escBLoop_inv (rest : List Nat) : ∀ (b : Buffer) (run : List Nat),
    TraceInv b → TraceInv (escBLoop b run rest) := by
  induction rest with
  | nil => intro b run h; exact writeBytes_inv b run h
  | cons c r ih =>
    intro b run h
    unfold escBLoop
    split
    · exact ih b (run ++ [c]) h
    · exact ih _ [] (write1_inv _ _ (writeBytes_inv _ _ h))

theorem escapeBytes_inv (b : Buffer) (s : List Nat) (h : TraceInv b) :
    TraceInv (escapeBytes b s) := escBLoop_inv s b [] h

theorem quote_inv (b : Buffer) (s : List Nat) (h : TraceInv b) :
    TraceInv (quote b s) := by
  refine TraceInv_congr _ (write1 (escape (write b [b.delim, [34]]) s) [34]) rfl rfl ?_
  exact write1_inv _ _ (escape_inv _ _ (write_inv _ _ h))

theorem quoteBytes_inv (b : Buffer) (s : List Nat) (h : TraceInv b) :
    TraceInv (quoteBytes b s) :=
  write1_inv _ _ (escapeBytes_inv _ _ (write_inv _ _ h))

theorem int2_inv (b : Buffer) (v : Nat) (h : TraceInv b) : TraceInv (int2 b v) :=
  TraceInv_congr _ b rfl rfl h

theorem intN_inv (b : Buffer) (val : Int) (digits : Nat) (h : TraceInv b) :
    TraceInv (intN b val digits) := TraceInv_congr _ b rfl rfl h

theorem tsLock_inv (b : Buffer) (h : TraceInv b) : TraceInv (tsLock b) := by
  unfold tsLock
  split
  · exact lock_inv b h
  · exact h

theorem yearApp_inv (b : Buffer) (y : Nat) (h : TraceInv b) : TraceInv (yearApp b y) :=
  TraceInv_congr _ b rfl rfl h

theorem setComma_inv (b : Buffer) (h : TraceInv b) : TraceInv (setComma b) :=
  TraceInv_congr _ b rfl rfl h

theorem timestamp_inv (b : Buffer) (t : UTCTime) (h : TraceInv b) :
    TraceInv (timestamp b t) := by
  have g1 := write1_inv _ [34] (tsLock_inv b h)
  have g2 := write1_inv _ [45] (yearApp_inv _ t.year g1)
  have g3 := write1_inv _ [45] (int2_inv _ t.month g2)
  have g4 := write1_inv _ [32] (int2_inv _ t.day g3)
  have g5 := write1_inv _ [58] (int2_inv _ t.hour g4)
  have g6 := write1_inv _ [58] (int2_inv _ t.minute g5)
  have g7 := write1_inv _ [46] (int2_inv _ t.second g6)
  have g8 := write1_inv _ [90, 34] (intN_inv _ ((t.nsec / 1000000 : Nat) : Int) 3 g7)
  exact setComma_inv _ g8

theorem openB_inv (b : Buffer) (p : List Nat) (h : TraceInv b) :
    TraceInv (openB b p) :=
  TraceInv_congr _ (write b [b.delim, p]) rfl rfl (write_inv _ _ h)

theorem colonB_inv (b : Buffer) (h : TraceInv b) : TraceInv (colonB b) :=
  TraceInv_congr _ (write b [[58]]) rfl rfl (write_inv _ _ h)

theorem closeB_inv (b : Buffer) (p : List Nat) (h : TraceInv b) :
    TraceInv (closeB b p) :=
  TraceInv_congr _ (write b [p]) rfl rfl (write_inv _ _ h)

theorem ensureRoom_inv (b : Buffer) (h : TraceInv b) : TraceInv (ensureRoom b) := by
  unfold ensureRoom
  split
  · exact lock_inv b h
  · exact h

theorem begScalar_inv (b : Buffer) (h : TraceInv b) : TraceInv (begScalar b) :=
  ensureRoom_inv _ (TraceInv_congr _ (write1 b b.delim) rfl rfl (write1_inv _ _ h))

theorem endScalar_inv (b : Buffer) (h : TraceInv b) : TraceInv (endScalar b) :=
  TraceInv_congr _ b rfl rfl h

theorem scalarNullV_inv (b : Buffer) (h : TraceInv b) : TraceInv (scalarNullV b) :=
  endScalar_inv _ (write1_inv _ _ (begScalar_inv _ h))

theorem scalarStr_inv (b : Buffer) (s : List Nat) (h : TraceInv b) :
    TraceInv (scalarStr b s) :=
  endScalar_inv _ (quote_inv _ _ (begScalar_inv _ h))

theorem strsGo_inv (l : List (List Nat)) : ∀ b : Buffer, TraceInv b →
    TraceInv (strsGo b l) := by
  induction l with
  | nil => intro b h; exact h
  | cons s rest ih =>
    intro b h
    exact ih (scalarStr b s) (scalarStr_inv b s h)

mutual
theorem scalar_inv : ∀ (b : Buffer) (v : Val), TraceInv b → TraceInv (scalar b v)
  | b, .vamapNil, h => h
  | b, .vamap [] vs, h => h
  | b, .vnull, h => scalarNullV_inv b h
  | b, .vstr s, h => scalarStr_inv b s h
  | b, .vbytes s, h => endScalar_inv _ (quoteBytes_inv _ _ (begScalar_inv _ h))
  | b, .vint i, h =>
    endScalar_inv _ (TraceInv_congr _ (begScalar b) rfl rfl (begScalar_inv _ h))
  | b, .vuint n, h =>
    endScalar_inv _ (TraceInv_congr _ (begScalar b) rfl rfl (begScalar_inv _ h))
  | b, .vbool true, h => endScalar_inv _ (write1_inv _ _ (begScalar_inv _ h))
  | b, .vbool false, h => endScalar_inv _ (write1_inv _ _ (begScalar_inv _ h))
  | b, .vstrs l, h =>
    endScalar_inv _ (closeB_inv _ _ (strsGo_inv l _ (openB_inv _ _ (begScalar_inv _ h))))
  | b, .vlist l, h =>
    endScalar_inv _ (closeB_inv _ _
      (scalarList_inv (openB (begScalar b) [91]) l (openB_inv _ _ (begScalar_inv _ h))))
  | b, .vrawmap l, h => by
    have h1 := rawGo_inv (openB (begScalar b) [123]) 0 l
      (openB_inv _ _ (begScalar_inv _ h))
    refine endScalar_inv _ (closeB_inv _ _ ?_)
    split
    · exact scalarNullV_inv _ h1
    · exact h1
  | b, .vamap (k :: ks) vs, h =>
    endScalar_inv _ (closeB_inv _ _
      (pairsGo_inv (openB (begScalar b) [123]) (k :: ks) vs
        (openB_inv _ _ (begScalar_inv _ h))))
  | b, .verr msg, h => endScalar_inv _ (quote_inv _ _ (begScalar_inv _ h))

theorem scalarList_inv : ∀ (b : Buffer) (l : ValList), TraceInv b →
    TraceInv (scalarList b l)
  | b, .nil, h => h
  | b, .cons v vs, h => scalarList_inv (scalar b v) vs (scalar_inv b v h)

theorem pairsGo_inv : ∀ (b : Buffer) (ks : List (List Nat)) (vs : ValList),
    TraceInv b → TraceInv (pairsGo b ks vs)
  | b, [], vs, h => by cases vs <;> exact h
  | b, k :: ks, .nil, h => h
  | b, k :: ks, .cons v vs, h =>
    pairsGo_inv (scalar (colonB (quote b k)) v) ks vs
      (scalar_inv _ v (colonB_inv _ (quote_inv _ _ h)))

theorem rawGo_inv : ∀ (b : Buffer) (i : Nat) (l : ValList), TraceInv b →
    TraceInv (rawGo b i l)
  | b, i, .nil, h => h
  | b, i, .cons v vs, h => by
    unfold rawGo
    split
    · exact rawGo_inv (colonB (quote b (S v))) (i + 1) vs
        (colonB_inv _ (quote_inv _ _ h))
    · exact rawGo_inv (scalar b v) (i + 1) vs (scalar_inv b v h)
end

theorem pairB_inv (b : Buffer) (k : List Nat) (v : Val) (h : TraceInv b) :
    TraceInv (pairB b k v) :=
  scalar_inv _ v (colonB_inv _ (quote_inv _ _ h))

/-! ### The full-line trace shape

After `unlock`, a line's complete event trace is either at most one stream
write and no lock traffic (the line always fit in scratch), or `lockAcq`
followed only by stream writes and terminated by `lockRel` (the first
early flush acquired the lock, every write to the stream happened while it
was held, and `release` flushed the remainder and released it). -/

/-- Stream writes only, terminated by the lock release. -/
def goodTail : List Ev → Bool
  | [] => false
  | [Ev.lockRel] => true
  | e :: r => e.isWr && goodTail r

/-- The shape of a complete line's trace: nothing, a single write, or an
acquire, writes only, and a final release. -/
def goodTrace : List Ev → Bool
  | [] => true
  | [Ev.wr _] => true
  | Ev.lockAcq :: rest => goodTail rest
  | _ => false

theorem goodTail_append (rest : List Ev) (h : tailWr rest = true) :
    goodTail (rest ++ [Ev.lockRel]) = true := by
  induction rest with
  | nil => rfl
  | cons e r ih =>
    rw [tailWr] at h
    rcases Bool.and_eq_true_iff.mp h with ⟨he, hr⟩
    cases e with
    | wr s =>
      have : goodTail ((Ev.wr s :: r) ++ [Ev.lockRel])
          = (Ev.isWr (Ev.wr s) && goodTail (r ++ [Ev.lockRel])) := by
        cases r <;> rfl
      rw [this, ih hr]
      rfl
    | lockAcq => simp [Ev.isWr] at he
    | lockRel => simp [Ev.isWr] at he

/-- Theorem: `unlock` turns the mid-composition invariant into the full-line trace
shape. -/
theorem unlock_goodTrace (b : Buffer) (h : TraceInv b) :
    goodTrace (unlock b).trace = true := by
  rcases h with ⟨hl, ht⟩ | ⟨hl, rest, ht, hw⟩
  · unfold unlock
    by_cases hb : 0 < b.buf.length <;>
      simp only [hb, if_true, if_false, ht, hl, Bool.false_eq_true] <;>
      simp [ht, hl, goodTrace]
  · unfold unlock
    by_cases hb : 0 < b.buf.length <;>
      simp only [hb, if_true, if_false, ht, hl, if_true]
    · have : goodTrace ((Ev.lockAcq :: rest ++ [Ev.wr b.buf]) ++ [Ev.lockRel])
          = goodTail ((rest ++ [Ev.wr b.buf]) ++ [Ev.lockRel]) := by
        cases rest <;> rfl
      simp only [List.cons_append] at this ⊢
      rw [this]
      exact goodTail_append _ (by simp [tailWr_append, hw, tailWr, Ev.isWr])
    · have : goodTrace ((Ev.lockAcq :: rest) ++ [Ev.lockRel])
          = goodTail (rest ++ [Ev.lockRel]) := by
        cases rest <;> rfl
      simp only [List.cons_append] at this ⊢
      rw [this]
      exact goodTail_append _ hw

/-! ### Compositions of one log line

A log line is composed by some sequence of the buffer's appending
operations, followed by `unlock`.  `Act` enumerates those operations
(each constructor an exported composition method of `buffer`), `runActs`
plays a composition against a buffer. -/

inductive Act where
  | wstrs : List (List Nat) → Act
  | wbytes : List Nat → Act
  | quoteA : List Nat → Act
  | quoteBytesA : List Nat → Act
  | timestampA : UTCTime → Act
  | openA : List Nat → Act
  | closeA : List Nat → Act
  | colonA : Act
  | pairA : List Nat → Val → Act
  | pairsA : List (List Nat) → ValList → Act
  | scalarA : Val → Act

/-- Run one composition step against the buffer. -/
def applyAct (b : Buffer) : Act → Buffer
  | .wstrs ss => write b ss
  | .wbytes s => writeBytes b s
  | .quoteA s => quote b s
  | .quoteBytesA s => quoteBytes b s
  | .timestampA t => timestamp b t
  | .openA p => openB b p
  | .closeA p => closeB b p
  | .colonA => colonB b
  | .pairA k v => pairB b k v
  | .pairsA ks vs => pairsGo b ks vs
  | .scalarA v => scalar b v

/-- Run a whole composition. -/
def runActs (b : Buffer) (acts : List Act) : Buffer := acts.foldl applyAct b

theorem applyAct_inv (b : Buffer) (a : Act) (h : TraceInv b) :
    TraceInv (applyAct b a) := by
  cases a with
  | wstrs ss => exact write_inv ss b h
  | wbytes s => exact writeBytes_inv b s h
  | quoteA s => exact quote_inv b s h
  | quoteBytesA s => exact quoteBytes_inv b s h
  | timestampA t => exact timestamp_inv b t h
  | openA p => exact openB_inv b p h
  | closeA p => exact closeB_inv b p h
  | colonA => exact colonB_inv b h
  | pairA k v => exact pairB_inv b k v h
  | pairsA ks vs => exact pairsGo_inv b ks vs h
  | scalarA v => exact scalar_inv b v h

theorem runActs_inv (acts : List Act) : ∀ b : Buffer, TraceInv b →
    TraceInv (runActs b acts) := by
  induction acts with
  | nil => intro b h; exact h
  | cons a rest ih =>
    intro b h
    exact ih (applyAct b a) (applyAct_inv b a h)

theorem newBuffer_inv : TraceInv newBuffer := Or.inl ⟨rfl, rfl⟩

/-! ### The lock-free fast path

As long as every append leaves 64 bytes of headroom over the final length
of the line, no operation ever locks or writes to the stream: the lock
flag stays clear and the trace stays empty, so the whole line sits in
scratch until `unlock` emits it with a single write. -/

/-- A buffer that has neither locked nor written anything yet. -/
def Pristine (b : Buffer) : Prop := b.locked = false ∧ b.trace = []

theorem pristine_emitted (b : Buffer) (h : Pristine b) : emitted b = b.buf := by
  rw [emitted, h.2]
  rfl

theorem pristine_congr (b b' : Buffer) (hl : b'.locked = b.locked)
    (ht : b'.trace = b.trace) (h : Pristine b) : Pristine b' :=
  ⟨hl.trans h.1, ht.trans h.2⟩

theorem write1_pure (b : Buffer) (s : List Nat) (h : Pristine b)
    (hlen : (emitted (write1 b s)).length + 64 ≤ b.cap) : Pristine (write1 b s) := by
  rw [write1_emitted, List.length_append, pristine_emitted b h] at hlen
  have h1 : ¬b.cap < b.buf.length + s.length := by omega
  have h2 : ¬b.cap < s.length := by omega
  unfold write1
  simp only [h1, if_false, h2]
  exact ⟨h.1, h.2⟩

theorem writeBytes_pure (b : Buffer) (s : List Nat) (h : Pristine b)
    (hlen : (emitted (writeBytes b s)).length + 64 ≤ b.cap) :
    Pristine (writeBytes b s) := write1_pure b s h hlen

theorem write_pure (strs : List (List Nat)) : ∀ b : Buffer, Pristine b →
    (emitted (write b strs)).length + 64 ≤ b.cap → Pristine (write b strs) := by
  induction strs with
  | nil => intro b h _; exact h
  | cons s rest ih =>
    intro b h hlen
    have hw : write b (s :: rest) = write (write1 b s) rest := rfl
    rw [hw] at hlen ⊢
    have hcap : (write1 b s).cap = b.cap := write1_cap b s
    have hmono : (emitted (write1 b s)).length ≤ (emitted (write (write1 b s) rest)).length := by
      rw [write_emitted]
      simp
    have hp1 : Pristine (write1 b s) := write1_pure b s h (by omega)
    exact ih (write1 b s) hp1 (by rw [hcap]; omega)

theorem escLoop_pure (rest : List Nat) : ∀ (b : Buffer) (run : List Nat), Pristine b →
    (emitted (escLoop b run rest)).length + 64 ≤ b.cap →
    Pristine (escLoop b run rest) := by
  induction rest with
  | nil =>
    intro b run h hlen
    exact write1_pure b run h hlen
  | cons c r ih =>
    intro b run h hlen
    unfold escLoop at hlen ⊢
    by_cases hc : noEsc c
    · simp only [hc, if_true] at hlen ⊢
      exact ih b (run ++ [c]) h hlen
    · simp only [hc, Bool.false_eq_true, if_false] at hlen ⊢
      have hle1 : (emitted (write1 b run)).length
          ≤ (emitted (escLoop (write1 (write1 b run) (escSeq c)) [] r)).length := by
        rw [escLoop_emitted, write1_emitted, write1_emitted]
        simp
      have hle2 : (emitted (write1 (write1 b run) (escSeq c))).length
          ≤ (emitted (escLoop (write1 (write1 b run) (escSeq c)) [] r)).length := by
        rw [escLoop_emitted]
        simp
      have hp1 : Pristine (write1 b run) := write1_pure b run h (by omega)
      have hp2 : Pristine (write1 (write1 b run) (escSeq c)) :=
        write1_pure _ _ hp1 (by rw [write1_cap]; omega)
      exact ih _ [] hp2 (by rw [write1_cap, write1_cap]; omega)

theorem escape_pure (b : Buffer) (s : List Nat) (h : Pristine b)
    (hlen : (emitted (escape b s)).length + 64 ≤ b.cap) : Pristine (escape b s) :=
  escLoop_pure s b [] h hlen

theorem escBLoop_pure (rest : List Nat) : ∀ (b : Buffer) (run : List Nat), Pristine b →
    (emitted (escBLoop b run rest)).length + 64 ≤ b.cap →
    Pristine (escBLoop b run rest) := by
  induction rest with
  | nil =>
    intro b run h hlen
    exact writeBytes_pure b run h hlen
  | cons c r ih =>
    intro b run h hlen
    unfold escBLoop at hlen ⊢
    by_cases hc : noEsc c
    · simp only [hc, if_true] at hlen ⊢
      exact ih b (run ++ [c]) h hlen
    · simp only [hc, Bool.false_eq_true, if_false] at hlen ⊢
      have hle1 : (emitted (writeBytes b run)).length
          ≤ (emitted (escBLoop (write1 (writeBytes b run) (escSeq c)) [] r)).length := by
        rw [escBLoop_emitted, write1_emitted, writeBytes_emitted]
        simp
      have hle2 : (emitted (write1 (writeBytes b run) (escSeq c))).length
          ≤ (emitted (escBLoop (write1 (writeBytes b run) (escSeq c)) [] r)).length := by
        rw [escBLoop_emitted]
        simp
      have hp1 : Pristine (writeBytes b run) := writeBytes_pure b run h (by omega)
      have hp2 : Pristine (write1 (writeBytes b run) (escSeq c)) :=
        write1_pure _ _ hp1 (by rw [writeBytes_cap]; omega)
      exact ih _ [] hp2 (by rw [write1_cap, writeBytes_cap]; omega)

theorem escapeBytes_pure (b : Buffer) (s : List Nat) (h : Pristine b)
    (hlen : (emitted (escapeBytes b s)).length + 64 ≤ b.cap) :
    Pristine (escapeBytes b s) := escBLoop_pure s b [] h hlen

theorem quote_pure (b : Buffer) (s : List Nat) (h : Pristine b)
    (hlen : (emitted (quote b s)).length + 64 ≤ b.cap) : Pristine (quote b s) := by
  have he : emitted (quote b s)
      = emitted (write1 (escape (write b [b.delim, [34]]) s) [34]) := rfl
  rw [he] at hlen
  have hle1 : (emitted (write b [b.delim, [34]])).length
      ≤ (emitted (write1 (escape (write b [b.delim, [34]]) s) [34])).length := by
    rw [write1_emitted, escape_emitted]
    simp
  have hle2 : (emitted (escape (write b [b.delim, [34]]) s)).length
      ≤ (emitted (write1 (escape (write b [b.delim, [34]]) s) [34])).length := by
    rw [write1_emitted]
    simp
  have hp1 : Pristine (write b [b.delim, [34]]) := write_pure _ b h (by omega)
  have hcap1 : (write b [b.delim, [34]]).cap = b.cap := by
    have hw : write b [b.delim, [34]] = write1 (write1 b b.delim) [34] := rfl
    rw [hw, write1_cap, write1_cap]
  have hp2 : Pristine (escape (write b [b.delim, [34]]) s) :=
    escape_pure _ s hp1 (by rw [hcap1]; omega)
  have hp3 : Pristine (write1 (escape (write b [b.delim, [34]]) s) [34]) :=
    write1_pure _ _ hp2 (by rw [escape_cap, hcap1]; omega)
  exact pristine_congr _ _ rfl rfl hp3

theorem quoteBytes_pure (b : Buffer) (s : List Nat) (h : Pristine b)
    (hlen : (emitted (quoteBytes b s)).length + 64 ≤ b.cap) :
    Pristine (quoteBytes b s) := by
  have he : emitted (quoteBytes b s)
      = emitted (write1 (escapeBytes (write b [b.delim, [34]]) s) [34]) := rfl
  rw [he] at hlen
  have hle1 : (emitted (write b [b.delim, [34]])).length
      ≤ (emitted (write1 (escapeBytes (write b [b.delim, [34]]) s) [34])).length := by
    rw [write1_emitted, escapeBytes_emitted]
    simp
  have hle2 : (emitted (escapeBytes (write b [b.delim, [34]]) s)).length
      ≤ (emitted (write1 (escapeBytes (write b [b.delim, [34]]) s) [34])).length := by
    rw [write1_emitted]
    simp
  have hp1 : Pristine (write b [b.delim, [34]]) := write_pure _ b h (by omega)
  have hcap1 : (write b [b.delim, [34]]).cap = b.cap := by
    have hw : write b [b.delim, [34]] = write1 (write1 b b.delim) [34] := rfl
    rw [hw, write1_cap, write1_cap]
  have hp2 : Pristine (escapeBytes (write b [b.delim, [34]]) s) :=
    escapeBytes_pure _ s hp1 (by rw [hcap1]; omega)
  exact write1_pure _ _ hp2 (by rw [escapeBytes_cap, hcap1]; omega)

theorem int2_pure (b : Buffer) (v : Nat) (h : Pristine b) : Pristine (int2 b v) :=
  pristine_congr _ b rfl rfl h

theorem intN_pure (b : Buffer) (val : Int) (digits : Nat) (h : Pristine b) :
    Pristine (intN b val digits) := pristine_congr _ b rfl rfl h

theorem yearApp_pure (b : Buffer) (y : Nat) (h : Pristine b) : Pristine (yearApp b y) :=
  pristine_congr _ b rfl rfl h

theorem setComma_pure (b : Buffer) (h : Pristine b) : Pristine (setComma b) :=
  pristine_congr _ b rfl rfl h

theorem tsLock_pure (b : Buffer) (h : Pristine b)
    (hlen : b.buf.length + 64 ≤ b.cap) : Pristine (tsLock b) := by
  unfold tsLock
  have h1 : ¬b.cap < b.buf.length + 22 := by omega
  simp only [h1, if_false]
  exact h

theorem ensureRoom_pure (b : Buffer) (h : Pristine b)
    (hlen : b.buf.length + 64 ≤ b.cap) : Pristine (ensureRoom b) := by
  unfold ensureRoom
  have h1 : ¬b.cap < b.buf.length + 64 := by omega
  simp only [h1, if_false]
  exact h

theorem openB_pure (b : Buffer) (p : List Nat) (h : Pristine b)
    (hlen : (emitted (openB b p)).length + 64 ≤ b.cap) : Pristine (openB b p) := by
  refine pristine_congr _ (write b [b.delim, p]) rfl rfl ?_
  refine write_pure _ b h ?_
  rw [openB_emitted] at hlen
  rw [write_emitted]
  simp only [cat_cons, cat_nil, List.append_nil, List.length_append] at hlen ⊢
  omega

theorem colonB_pure (b : Buffer) (h : Pristine b)
    (hlen : (emitted (colonB b)).length + 64 ≤ b.cap) : Pristine (colonB b) := by
  refine pristine_congr _ (write b [[58]]) rfl rfl ?_
  refine write_pure _ b h ?_
  rw [colonB_emitted] at hlen
  rw [write_emitted]
  simp only [cat_cons, cat_nil, List.append_nil, List.length_append] at hlen ⊢
  omega

theorem closeB_pure (b : Buffer) (p : List Nat) (h : Pristine b)
    (hlen : (emitted (closeB b p)).length + 64 ≤ b.cap) : Pristine (closeB b p) := by
  refine pristine_congr _ (write b [p]) rfl rfl ?_
  refine write_pure _ b h ?_
  rw [closeB_emitted] at hlen
  rw [write_emitted]
  simp only [cat_cons, cat_nil, List.append_nil, List.length_append] at hlen ⊢
  omega

theorem endScalar_pure (b : Buffer) (h : Pristine b) : Pristine (endScalar b) :=
  pristine_congr _ b rfl rfl h

theorem begScalar_pure (b : Buffer) (h : Pristine b)
    (hlen : (emitted (begScalar b)).length + 64 ≤ b.cap) : Pristine (begScalar b) := by
  have he : emitted (begScalar b) = emitted b ++ b.delim := begScalar_emitted b
  have he1 : emitted (write1 b b.delim) = emitted b ++ b.delim := write1_emitted b b.delim
  rw [he] at hlen
  have hp1 : Pristine (write1 b b.delim) := write1_pure b b.delim h (by rw [he1]; omega)
  have hp2 : Pristine { write1 b b.delim with delim := ([] : List Nat) } :=
    pristine_congr _ _ rfl rfl hp1
  refine ensureRoom_pure _ hp2 ?_
  have hbuf : (write1 b b.delim).buf = emitted b ++ b.delim :=
    (pristine_emitted _ hp1).symm.trans he1
  show (write1 b b.delim).buf.length + 64 ≤ (write1 b b.delim).cap
  rw [hbuf, write1_cap]
  simpa using hlen

theorem scalarNullV_pure (b : Buffer) (h : Pristine b)
    (hlen : (emitted (scalarNullV b)).length + 64 ≤ b.cap) : Pristine (scalarNullV b) := by
  rw [scalarNullV_emitted] at hlen
  simp only [List.length_append, List.length_cons, List.length_nil] at hlen
  have hp1 : Pristine (begScalar b) := begScalar_pure b h (by simp; omega)
  refine endScalar_pure _ (write1_pure _ _ hp1 ?_)
  rw [write1_emitted, begScalar_cap]
  simp only [begScalar_emitted, List.length_append, List.length_cons, List.length_nil]
  omega

theorem scalarStr_pure (b : Buffer) (s : List Nat) (h : Pristine b)
    (hlen : (emitted (scalarStr b s)).length + 64 ≤ b.cap) : Pristine (scalarStr b s) := by
  rw [scalarStr_emitted] at hlen
  simp only [List.length_append, List.length_cons, List.length_nil] at hlen
  have hp1 : Pristine (begScalar b) := begScalar_pure b h (by simp; omega)
  refine endScalar_pure _ (quote_pure _ s hp1 ?_)
  rw [quote_emitted, begScalar_cap]
  simp only [begScalar_emitted, begScalar_delim, List.length_append, List.length_cons,
    List.length_nil, List.append_nil]
  omega

theorem strsGo_pure (l : List (List Nat)) : ∀ b : Buffer, Pristine b →
    (emitted (strsGo b l)).length + 64 ≤ b.cap → Pristine (strsGo b l) := by
  induction l with
  | nil => intro b h _; exact h
  | cons s rest ih =>
    intro b h hlen
    have h0 : strsGo b (s :: rest) = strsGo (scalarStr b s) rest := rfl
    rw [h0] at hlen ⊢
    have hsub : (emitted (scalarStr b s)).length + 64 ≤ b.cap := by
      rw [strsGo_emitted, List.length_append] at hlen
      omega
    have hp1 : Pristine (scalarStr b s) := scalarStr_pure b s h hsub
    exact ih (scalarStr b s) hp1 (by rw [scalarStr_cap]; exact hlen)

theorem timestamp_pure (b : Buffer) (t : UTCTime) (h : Pristine b)
    (hlen : (emitted (timestamp b t)).length + 64 ≤ b.cap) : Pristine (timestamp b t) := by
  rw [timestamp_emitted] at hlen
  simp [int2bytes, List.length_append] at hlen
  have hb0 : b.buf.length = (emitted b).length := by rw [pristine_emitted b h]
  have hp0 : Pristine (tsLock b) := tsLock_pure b h (by omega)
  have hp1 : Pristine (write1 (tsLock b) [34]) :=
    write1_pure _ _ hp0 (by simp; omega)
  have hp2 : Pristine (yearApp (write1 (tsLock b) [34]) t.year) := yearApp_pure _ _ hp1
  have hp3 := write1_pure _ [45] hp2 (by simp; omega)
  have hp4 := int2_pure _ t.month hp3
  have hp5 := write1_pure _ [45] hp4 (by simp [int2bytes]; omega)
  have hp6 := int2_pure _ t.day hp5
  have hp7 := write1_pure _ [32] hp6 (by simp [int2bytes]; omega)
  have hp8 := int2_pure _ t.hour hp7
  have hp9 := write1_pure _ [58] hp8 (by simp [int2bytes]; omega)
  have hp10 := int2_pure _ t.minute hp9
  have hp11 := write1_pure _ [58] hp10 (by simp [int2bytes]; omega)
  have hp12 := int2_pure _ t.second hp11
  have hp13 := write1_pure _ [46] hp12 (by simp [int2bytes]; omega)
  have hp14 := intN_pure _ ((t.nsec / 1000000 : Nat) : Int) 3 hp13
  have hp15 := write1_pure _ [90, 34] hp14 (by simp [int2bytes]; omega)
  exact setComma_pure _ hp15

mutual
theorem scalar_pure : ∀ (b : Buffer) (v : Val), Pristine b →
    (emitted (scalar b v)).length + 64 ≤ b.cap → Pristine (scalar b v)
  | b, .vamapNil, h, _ => h
  | b, .vamap [] vs, h, _ => by cases vs <;> exact h
  | b, .vnull, h, hlen => scalarNullV_pure b h hlen
  | b, .vstr s, h, hlen => scalarStr_pure b s h hlen
  | b, .vbytes s, h, hlen => by
    rw [(scalar_spec b (.vbytes s)).1] at hlen
    simp [encV] at hlen
    have hp1 := begScalar_pure b h (by simp; omega)
    have hp2 := quoteBytes_pure _ s hp1 (by simp; omega)
    exact endScalar_pure _ hp2
  | b, .vint i, h, hlen => by
    rw [(scalar_spec b (.vint i)).1] at hlen
    simp [encV] at hlen
    have hp1 := begScalar_pure b h (by simp; omega)
    exact endScalar_pure _ (pristine_congr _ (begScalar b) rfl rfl hp1)
  | b, .vuint n, h, hlen => by
    rw [(scalar_spec b (.vuint n)).1] at hlen
    simp [encV] at hlen
    have hp1 := begScalar_pure b h (by simp; omega)
    exact endScalar_pure _ (pristine_congr _ (begScalar b) rfl rfl hp1)
  | b, .vbool true, h, hlen => by
    rw [(scalar_spec b (.vbool true)).1] at hlen
    simp [encV] at hlen
    have hp1 := begScalar_pure b h (by simp; omega)
    have hp2 := write1_pure _ [116, 114, 117, 101] hp1 (by simp; omega)
    exact endScalar_pure _ hp2
  | b, .vbool false, h, hlen => by
    rw [(scalar_spec b (.vbool false)).1] at hlen
    simp [encV] at hlen
    have hp1 := begScalar_pure b h (by simp; omega)
    have hp2 := write1_pure _ [102, 97, 108, 115, 101] hp1 (by simp; omega)
    exact endScalar_pure _ hp2
  | b, .vstrs l, h, hlen => by
    rw [(scalar_spec b (.vstrs l)).1] at hlen
    simp [encV] at hlen
    have hp1 := begScalar_pure b h (by simp; omega)
    have hp2 := openB_pure _ [91] hp1 (by simp; omega)
    have hp3 := strsGo_pure l _ hp2 (by simp; omega)
    have hp4 := closeB_pure _ [93] hp3 (by simp; omega)
    exact endScalar_pure _ hp4
  | b, .vlist l, h, hlen => by
    rw [(scalar_spec b (.vlist l)).1] at hlen
    simp [encV] at hlen
    have hp1 := begScalar_pure b h (by simp; omega)
    have hp2 := openB_pure _ [91] hp1 (by simp; omega)
    have hp3 := scalarList_pure (openB (begScalar b) [91]) l hp2
      (by simp [(scalarList_spec (openB (begScalar b) [91]) l).1]; omega)
    have hp4 := closeB_pure _ [93] hp3
      (by simp [(scalarList_spec (openB (begScalar b) [91]) l).1,
        (scalarList_spec (openB (begScalar b) [91]) l).2.1,
        (scalarList_spec (openB (begScalar b) [91]) l).2.2]; omega)
    exact endScalar_pure _ hp4
  | b, .vrawmap l, h, hlen => by
    rw [(scalar_spec b (.vrawmap l)).1] at hlen
    by_cases hodd : l.length % 2 = 1 <;> simp [encV, hodd] at hlen
    · have hp1 := begScalar_pure b h (by simp; omega)
      have hp2 := openB_pure _ [123] hp1 (by simp; omega)
      have hp3 := rawGo_pure (openB (begScalar b) [123]) 0 l hp2
        (by simp [(rawGo_spec (openB (begScalar b) [123]) 0 l).1]; omega)
      have hp4 := scalarNullV_pure _ hp3
        (by simp [scalarNullV_emitted, (rawGo_spec (openB (begScalar b) [123]) 0 l).1,
          (rawGo_spec (openB (begScalar b) [123]) 0 l).2.1,
          (rawGo_spec (openB (begScalar b) [123]) 0 l).2.2]; omega)
      have hp5 := closeB_pure _ [125] hp4
        (by simp [scalarNullV_emitted, scalarNullV_cap,
          (rawGo_spec (openB (begScalar b) [123]) 0 l).1,
          (rawGo_spec (openB (begScalar b) [123]) 0 l).2.1,
          (rawGo_spec (openB (begScalar b) [123]) 0 l).2.2]; omega)
      have hfin := endScalar_pure _ hp5
      have h0 : scalar b (.vrawmap l)
          = endScalar (closeB (scalarNullV (rawGo (openB (begScalar b) [123]) 0 l)) [125]) := by
        show (let b1 := rawGo (openB (begScalar b) [123]) 0 l;
          let b2 := if l.length % 2 = 1 then scalarNullV b1 else b1;
          endScalar (closeB b2 [125])) = _
        simp only [hodd, if_true]
      rw [h0]
      exact hfin
    · have hp1 := begScalar_pure b h (by simp; omega)
      have hp2 := openB_pure _ [123] hp1 (by simp; omega)
      have hp3 := rawGo_pure (openB (begScalar b) [123]) 0 l hp2
        (by simp [(rawGo_spec (openB (begScalar b) [123]) 0 l).1]; omega)
      have hp5 := closeB_pure _ [125] hp3
        (by simp [(rawGo_spec (openB (begScalar b) [123]) 0 l).1,
          (rawGo_spec (openB (begScalar b) [123]) 0 l).2.1,
          (rawGo_spec (openB (begScalar b) [123]) 0 l).2.2]; omega)
      have hfin := endScalar_pure _ hp5
      have h0 : scalar b (.vrawmap l)
          = endScalar (closeB (rawGo (openB (begScalar b) [123]) 0 l) [125]) := by
        show (let b1 := rawGo (openB (begScalar b) [123]) 0 l;
          let b2 := if l.length % 2 = 1 then scalarNullV b1 else b1;
          endScalar (closeB b2 [125])) = _
        simp only [hodd, if_false]
      rw [h0]
      exact hfin
  | b, .vamap (k :: ks) vs, h, hlen => by
    rw [(scalar_spec b (.vamap (k :: ks) vs)).1] at hlen
    simp [encV] at hlen
    have hp1 := begScalar_pure b h (by simp; omega)
    have hp2 := openB_pure _ [123] hp1 (by simp; omega)
    have hp3 := pairsGo_pure (openB (begScalar b) [123]) (k :: ks) vs hp2
      (by simp [(pairsGo_spec (openB (begScalar b) [123]) (k :: ks) vs).1]; omega)
    have hp4 := closeB_pure _ [125] hp3
      (by simp [(pairsGo_spec (openB (begScalar b) [123]) (k :: ks) vs).1,
        (pairsGo_spec (openB (begScalar b) [123]) (k :: ks) vs).2.1,
        (pairsGo_spec (openB (begScalar b) [123]) (k :: ks) vs).2.2]; omega)
    exact endScalar_pure _ hp4
  | b, .verr msg, h, hlen => by
    rw [(scalar_spec b (.verr msg)).1] at hlen
    simp [encV] at hlen
    have hp1 := begScalar_pure b h (by simp; omega)
    have hp2 := quote_pure _ msg hp1 (by simp; omega)
    exact endScalar_pure _ hp2

theorem scalarList_pure : ∀ (b : Buffer) (l : ValList), Pristine b →
    (emitted (scalarList b l)).length + 64 ≤ b.cap → Pristine (scalarList b l)
  | b, .nil, h, _ => h
  | b, .cons v vs, h, hlen => by
    have h0 : scalarList b (.cons v vs) = scalarList (scalar b v) vs := rfl
    rw [h0] at hlen ⊢
    have hsub : (emitted (scalar b v)).length + 64 ≤ b.cap := by
      rw [(scalarList_spec (scalar b v) vs).1, List.length_append] at hlen
      omega
    have hpv : Pristine (scalar b v) := scalar_pure b v h hsub
    exact scalarList_pure (scalar b v) vs hpv
      (by rw [(scalar_spec b v).2.2]; exact hlen)

theorem pairsGo_pure : ∀ (b : Buffer) (ks : List (List Nat)) (vs : ValList),
    Pristine b → (emitted (pairsGo b ks vs)).length + 64 ≤ b.cap →
    Pristine (pairsGo b ks vs)
  | b, [], vs, h, _ => by cases vs <;> exact h
  | b, k :: ks, .nil, h, _ => h
  | b, k :: ks, .cons v vs, h, hlen => by
    have h0 : pairsGo b (k :: ks) (.cons v vs)
        = pairsGo (scalar (colonB (quote b k)) v) ks vs := rfl
    rw [h0] at hlen ⊢
    have hrest := (pairsGo_spec (scalar (colonB (quote b k)) v) ks vs).1
    have hsc := (scalar_spec (colonB (quote b k)) v).1
    have hq : (emitted (quote b k)).length + 64 ≤ b.cap := by
      rw [hrest, hsc, colonB_emitted, List.length_append, List.length_append,
        List.length_append] at hlen
      omega
    have hp1 : Pristine (quote b k) := quote_pure b k h hq
    have hp2 : Pristine (colonB (quote b k)) := colonB_pure _ hp1 (by
      rw [colonB_emitted, quote_cap]
      rw [hrest, hsc, colonB_emitted] at hlen
      simp only [List.length_append] at hlen ⊢
      omega)
    have hp3 : Pristine (scalar (colonB (quote b k)) v) :=
      scalar_pure _ v hp2 (by
        rw [colonB_cap, quote_cap]
        rw [hrest, List.length_append] at hlen
        omega)
    exact pairsGo_pure (scalar (colonB (quote b k)) v) ks vs hp3 (by
      rw [(scalar_spec (colonB (quote b k)) v).2.2, colonB_cap, quote_cap]
      exact hlen)

theorem rawGo_pure : ∀ (b : Buffer) (i : Nat) (l : ValList), Pristine b →
    (emitted (rawGo b i l)).length + 64 ≤ b.cap → Pristine (rawGo b i l)
  | b, i, .nil, h, _ => h
  | b, i, .cons v vs, h, hlen => by
    by_cases hi : i % 2 = 0
    · have he : rawGo b i (.cons v vs) = if i % 2 = 0 then rawGo (colonB (quote b (S v)))
          (i + 1) vs else rawGo (scalar b v) (i + 1) vs := rfl
      have h0 : rawGo b i (.cons v vs) = rawGo (colonB (quote b (S v))) (i + 1) vs := by
        rw [he, if_pos hi]
      rw [h0] at hlen ⊢
      have hrest := (rawGo_spec (colonB (quote b (S v))) (i + 1) vs).1
      have hq : (emitted (quote b (S v))).length + 64 ≤ b.cap := by
        rw [hrest, colonB_emitted, List.length_append, List.length_append] at hlen
        omega
      have hp1 : Pristine (quote b (S v)) := quote_pure b (S v) h hq
      have hp2 : Pristine (colonB (quote b (S v))) := colonB_pure _ hp1 (by
        rw [colonB_emitted, quote_cap]
        rw [hrest, colonB_emitted] at hlen
        simp only [List.length_append] at hlen ⊢
        omega)
      exact rawGo_pure (colonB (quote b (S v))) (i + 1) vs hp2 (by
        rw [colonB_cap, quote_cap]
        exact hlen)
    · have he : rawGo b i (.cons v vs) = if i % 2 = 0 then rawGo (colonB (quote b (S v)))
          (i + 1) vs else rawGo (scalar b v) (i + 1) vs := rfl
      have h0 : rawGo b i (.cons v vs) = rawGo (scalar b v) (i + 1) vs := by
        rw [he, if_neg hi]
      rw [h0] at hlen ⊢
      have hrest := (rawGo_spec (scalar b v) (i + 1) vs).1
      have hsc : (emitted (scalar b v)).length + 64 ≤ b.cap := by
        rw [hrest, List.length_append] at hlen
        omega
      have hp1 : Pristine (scalar b v) := scalar_pure b v h hsc
      exact rawGo_pure (scalar b v) (i + 1) vs hp1 (by
        rw [(scalar_spec b v).2.2]
        exact hlen)
end

theorem pairB_pure (b : Buffer) (k : List Nat) (v : Val) (h : Pristine b)
    (hlen : (emitted (pairB b k v)).length + 64 ≤ b.cap) : Pristine (pairB b k v) := by
  unfold pairB at hlen ⊢
  have hsc := (scalar_spec (colonB (quote b k)) v).1
  have hq : (emitted (quote b k)).length + 64 ≤ b.cap := by
    rw [hsc, colonB_emitted, List.length_append, List.length_append] at hlen
    omega
  have hp1 : Pristine (quote b k) := quote_pure b k h hq
  have hp2 : Pristine (colonB (quote b k)) := colonB_pure _ hp1 (by
    rw [colonB_emitted, quote_cap]
    rw [hsc, colonB_emitted] at hlen
    simp only [List.length_append] at hlen ⊢
    omega)
  exact scalar_pure _ v hp2 (by rw [colonB_cap, quote_cap]; exact hlen)

theorem pairB_cap (b : Buffer) (k : List Nat) (v : Val) : (pairB b k v).cap = b.cap := by
  unfold pairB
  rw [(scalar_spec (colonB (quote b k)) v).2.2, colonB_cap, quote_cap]

theorem applyAct_cap (b : Buffer) (a : Act) : (applyAct b a).cap = b.cap := by
  cases a with
  | wstrs ss => exact write_cap ss b
  | wbytes s => exact writeBytes_cap b s
  | quoteA s => exact quote_cap b s
  | quoteBytesA s => exact quoteBytes_cap b s
  | timestampA t => exact timestamp_cap b t
  | openA p => exact openB_cap b p
  | closeA p => exact closeB_cap b p
  | colonA => exact colonB_cap b
  | pairA k v => exact pairB_cap b k v
  | pairsA ks vs => exact (pairsGo_spec b ks vs).2.2
  | scalarA v => exact (scalar_spec b v).2.2

theorem applyAct_emitted (b : Buffer) (a : Act) :
    ∃ d, emitted (applyAct b a) = emitted b ++ d := by
  cases a with
  | wstrs ss => exact ⟨cat ss, write_emitted ss b⟩
  | wbytes s => exact ⟨s, writeBytes_emitted b s⟩
  | quoteA s => exact ⟨b.delim ++ [34] ++ escBytes s ++ [34], by simp [applyAct]⟩
  | quoteBytesA s => exact ⟨b.delim ++ [34] ++ escBytes s ++ [34], by simp [applyAct]⟩
  | timestampA t =>
    exact ⟨[34] ++ intBytes (t.year : Int) ++ [45] ++ int2bytes t.month ++ [45]
      ++ int2bytes t.day ++ [32] ++ int2bytes t.hour ++ [58] ++ int2bytes t.minute
      ++ [58] ++ int2bytes t.second ++ [46]
      ++ padZero 3 (intBytes ((t.nsec / 1000000 : Nat) : Int)) ++ [90, 34],
      by simp [applyAct, timestamp_emitted]⟩
  | openA p => exact ⟨b.delim ++ p, by simp [applyAct]⟩
  | closeA p => exact ⟨p, by simp [applyAct]⟩
  | colonA => exact ⟨[58], by simp [applyAct]⟩
  | pairA k v =>
    exact ⟨b.delim ++ [34] ++ escBytes k ++ [34] ++ [58] ++ encV [] v,
      by simp [applyAct, pairB, (scalar_spec (colonB (quote b k)) v).1]⟩
  | pairsA ks vs => exact ⟨(encPairs b.delim ks vs).1, (pairsGo_spec b ks vs).1⟩
  | scalarA v => exact ⟨encV b.delim v, (scalar_spec b v).1⟩

theorem applyAct_pure (b : Buffer) (a : Act) (h : Pristine b)
    (hlen : (emitted (applyAct b a)).length + 64 ≤ b.cap) : Pristine (applyAct b a) := by
  cases a with
  | wstrs ss => exact write_pure ss b h hlen
  | wbytes s => exact writeBytes_pure b s h hlen
  | quoteA s => exact quote_pure b s h hlen
  | quoteBytesA s => exact quoteBytes_pure b s h hlen
  | timestampA t => exact timestamp_pure b t h hlen
  | openA p => exact openB_pure b p h hlen
  | closeA p => exact closeB_pure b p h hlen
  | colonA => exact colonB_pure b h hlen
  | pairA k v => exact pairB_pure b k v h hlen
  | pairsA ks vs => exact pairsGo_pure b ks vs h hlen
  | scalarA v => exact scalar_pure b v h hlen

theorem runActs_emitted (acts : List Act) : ∀ b : Buffer,
    ∃ d, emitted (runActs b acts) = emitted b ++ d := by
  induction acts with
  | nil => intro b; exact ⟨[], by simp [runActs]⟩
  | cons a rest ih =>
    intro b
    obtain ⟨d1, hd1⟩ := applyAct_emitted b a
    obtain ⟨d2, hd2⟩ := ih (applyAct b a)
    have h0 : runActs b (a :: rest) = runActs (applyAct b a) rest := rfl
    exact ⟨d1 ++ d2, by rw [h0, hd2, hd1]; simp⟩

theorem runActs_cap (acts : List Act) : ∀ b : Buffer, (runActs b acts).cap = b.cap := by
  induction acts with
  | nil => intro b; rfl
  | cons a rest ih =>
    intro b
    have h0 : runActs b (a :: rest) = runActs (applyAct b a) rest := rfl
    rw [h0, ih (applyAct b a), applyAct_cap]

theorem runActs_pure (acts : List Act) : ∀ b : Buffer, Pristine b →
    (emitted (runActs b acts)).length + 64 ≤ b.cap → Pristine (runActs b acts) := by
  induction acts with
  | nil => intro b h _; exact h
  | cons a rest ih =>
    intro b h hlen
    have h0 : runActs b (a :: rest) = runActs (applyAct b a) rest := rfl
    rw [h0] at hlen ⊢
    obtain ⟨d2, hd2⟩ := runActs_emitted rest (applyAct b a)
    have hsub : (emitted (applyAct b a)).length + 64 ≤ b.cap := by
      rw [hd2, List.length_append] at hlen
      omega
    have hp1 : Pristine (applyAct b a) := applyAct_pure b a h hsub
    exact ih (applyAct b a) hp1 (by rw [applyAct_cap]; exact hlen)

/-- On a buffer that never locked or flushed, `unlock` performs exactly one
stream write, carrying the complete buffered line. -/
theorem unlock_pristine_trace (b : Buffer) (h : Pristine b) (hne : 0 < b.buf.length) :
    (unlock b).trace = [Ev.wr b.buf] := by
  unfold unlock
  simp only [hne, if_true]
  simp [h.1, h.2]

/-! ### Decimal digit counts -/

theorem decDigitsAux_fuel : ∀ (f1 f2 n : Nat), n < f1 → n < f2 →
    decDigitsAux f1 n = decDigitsAux f2 n := by
  intro f1
  induction f1 with
  | zero => intro f2 n h1 _; omega
  | succ f1 ih =>
    intro f2 n h1 h2
    cases f2 with
    | zero => omega
    | succ f2 =>
      by_cases h10 : n < 10
      · simp [decDigitsAux, h10]
      · simp only [decDigitsAux, h10, if_false]
        have hdiv : n / 10 < n := Nat.div_lt_self (by omega) (by omega)
        rw [ih f2 (n / 10) (by omega) (by omega)]

theorem decDigits_eq (n : Nat) : decDigits n
    = if n < 10 then [48 + n] else decDigits (n / 10) ++ [48 + n % 10] := by
  by_cases h10 : n < 10
  · simp [decDigits, decDigitsAux, h10]
  · have h0 : decDigits n = decDigitsAux n (n / 10) ++ [48 + n % 10] := by
      show decDigitsAux (n + 1) n = _
      rw [show decDigitsAux (n + 1) n = if n < 10 then [48 + n]
        else decDigitsAux n (n / 10) ++ [48 + n % 10] from rfl, if_neg h10]
    rw [h0, if_neg h10]
    have hdiv : n / 10 < n := Nat.div_lt_self (by omega) (by omega)
    rw [decDigitsAux_fuel n (n / 10 + 1) (n / 10) (by omega) (by omega)]
    rfl

theorem decDigits_len : ∀ (k n : Nat), n < 10 ^ (k + 1) → (decDigits n).length ≤ k + 1 := by
  intro k
  induction k with
  | zero =>
    intro n h
    rw [decDigits_eq]
    simp [show n < 10 from by simpa using h]
  | succ k ih =>
    intro n h
    rw [decDigits_eq]
    by_cases h10 : n < 10
    · simp [h10]
    · simp only [h10, if_false, List.length_append, List.length_cons, List.length_nil]
      have hlt : n / 10 < 10 ^ (k + 1) := by
        have hmul : n < 10 ^ (k + 1) * 10 := by
          have : (10 : Nat) ^ (k + 1 + 1) = 10 ^ (k + 1) * 10 := pow_succ 10 (k + 1)
          omega
        exact Nat.div_lt_of_lt_mul (by omega)
      have := ih (n / 10) hlt
      omega

/-- A 64-bit integer needs at most 20 bytes (19 digits and a sign). -/
theorem intBytes_len (i : Int) (h : i.natAbs < 2 ^ 63) : (intBytes i).length ≤ 20 := by
  have h19 : i.natAbs < 10 ^ 19 := by
    have h2 : (2 : Nat) ^ 63 < 10 ^ 19 := by norm_num
    omega
  have hlen := decDigits_len 18 i.natAbs (by simpa using h19)
  unfold intBytes
  split <;> simp <;> omega

/-- After the 64-byte headroom check of `buffer.scalar`, at least 64 bytes
of scratch room remain (locking flushes the buffer to empty, so this only
needs the scratch region itself to hold 64 bytes). -/
theorem ensureRoom_headroom (b : Buffer) (h : 64 ≤ b.cap) :
    (ensureRoom b).buf.length + 64 ≤ b.cap := by
  unfold ensureRoom
  split
  · rw [lock_buf]
    simpa using h
  · omega

/-! ### The escaper against the claim's byte table -/

/-- A lowercase hexadecimal digit, as the claim describes it. -/
def lowHex (h : Nat) : Nat := if h < 10 then 48 + h else 87 + h

/-- The per-byte escaping described by the specification: bytes at or
above 0x20 other than `"` and `\` (and all bytes at or above 0x80) pass
through; `"`, `\`, backspace, form-feed, newline, carriage return and tab
get two-byte escapes; every other byte below 0x20 becomes
`\u00XX` with two lowercase hex digits. -/
def escSpecByte (c : Nat) : List Nat :=
  if 32 ≤ c ∧ c ≠ 34 ∧ c ≠ 92 then [c]
  else if c = 34 then [92, 34]
  else if c = 92 then [92, 92]
  else if c = 8 then [92, 98]
  else if c = 12 then [92, 102]
  else if c = 10 then [92, 110]
  else if c = 13 then [92, 114]
  else if c = 9 then [92, 116]
  else [92, 117, 48, 48, lowHex (c / 16), lowHex (c % 16)]

set_option maxRecDepth 4000 in
theorem escByte_eq_spec : ∀ c, c < 256 → escByte c = escSpecByte c := by decide

/-! ### A standard JSON string un-escaper

Modelled from the spec: the "standard JSON parser" un-escaping of a string
body is not part of this repository; this is the usual byte-level decoder
for the escapes a JSON string may contain (two-character escapes and
`\uXXXX`, whose code value is returned directly — sufficient here because
the escaper only ever emits `\u00XX` for control bytes). -/

/-- The value of one hexadecimal digit byte. -/
def hexVal (c : Nat) : Option Nat :=
  if 48 ≤ c ∧ c ≤ 57 then some (c - 48)
  else if 97 ≤ c ∧ c ≤ 102 then some (c - 87)
  else if 65 ≤ c ∧ c ≤ 70 then some (c - 55)
  else none

mutual
/-- Standard JSON string un-escaping (see the section comment). -/
def unesc : List Nat → Option (List Nat)
  | [] => some []
  | c :: r => if c = 92 then unescEsc r else (unesc r).map (fun x => c :: x)

/-- Decoding of the part after a backslash. -/
def unescEsc : List Nat → Option (List Nat)
  | 34 :: r2 => (unesc r2).map (fun x => 34 :: x)
  | 92 :: r2 => (unesc r2).map (fun x => 92 :: x)
  | 47 :: r2 => (unesc r2).map (fun x => 47 :: x)
  | 98 :: r2 => (unesc r2).map (fun x => 8 :: x)
  | 102 :: r2 => (unesc r2).map (fun x => 12 :: x)
  | 110 :: r2 => (unesc r2).map (fun x => 10 :: x)
  | 114 :: r2 => (unesc r2).map (fun x => 13 :: x)
  | 116 :: r2 => (unesc r2).map (fun x => 9 :: x)
  | 117 :: h1 :: h2 :: h3 :: h4 :: r2 =>
    match hexVal h1, hexVal h2, hexVal h3, hexVal h4 with
    | some a, some a2, some a3, some a4 =>
      (unesc r2).map (fun x => (4096 * a + 256 * a2 + 16 * a3 + a4) :: x)
    | _, _, _, _ => none
  | _ => none
end

theorem hexVal_hexDig : ∀ h, h < 16 → hexVal (hexDig h) = some h := by decide

theorem unesc_escByte (c : Nat) (t : List Nat) :
    unesc (escByte c ++ t) = (unesc t).map (fun x => c :: x) := by
  by_cases hno : noEsc c
  · have hprops : 32 ≤ c ∧ c ≠ 34 ∧ c ≠ 92 := by
      simp [noEsc] at hno
      omega
    simp only [escByte, hno, if_true, List.cons_append, List.nil_append]
    rw [unesc]
    simp [hprops.2.2]
  · by_cases h34 : c = 34
    · subst h34; rfl
    by_cases h92 : c = 92
    · subst h92; rfl
    by_cases h8 : c = 8
    · subst h8; rfl
    by_cases h12 : c = 12
    · subst h12; rfl
    by_cases h10 : c = 10
    · subst h10; rfl
    by_cases h13 : c = 13
    · subst h13; rfl
    by_cases h9 : c = 9
    · subst h9; rfl
    have hc32 : c < 32 := by
      simp [noEsc] at hno
      omega
    have hs : escByte c ++ t
        = 92 :: 117 :: 48 :: 48 :: hexDig (c / 16) :: hexDig (c % 16) :: t := by
      simp only [escByte, hno, Bool.false_eq_true, if_false]
      unfold escSeq
      have e1 : c / 4096 % 16 = 0 := by omega
      have e2 : c / 256 % 16 = 0 := by omega
      have e3 : c / 16 % 16 = c / 16 := by omega
      rw [if_neg h34, if_neg h92, if_neg h8, if_neg h12, if_neg h10, if_neg h13,
        if_neg h9, e1, e2, e3]
      rfl
    rw [hs]
    have hd1 : hexVal (hexDig (c / 16)) = some (c / 16) := hexVal_hexDig _ (by omega)
    have hd2 : hexVal (hexDig (c % 16)) = some (c % 16) := hexVal_hexDig _ (by omega)
    have h0 : unesc (92 :: 117 :: 48 :: 48 :: hexDig (c / 16) :: hexDig (c % 16) :: t)
        = match hexVal 48, hexVal 48, hexVal (hexDig (c / 16)),
            hexVal (hexDig (c % 16)) with
          | some a, some a2, some a3, some a4 =>
            (unesc t).map (fun x => (4096 * a + 256 * a2 + 16 * a3 + a4) :: x)
          | _, _, _, _ => none := rfl
    rw [h0, show hexVal 48 = some 0 from rfl, hd1, hd2]
    have hval : 4096 * 0 + 256 * 0 + 16 * (c / 16) + c % 16 = c := by omega
    show Option.map (fun x => (4096 * 0 + 256 * 0 + 16 * (c / 16) + c % 16) :: x) (unesc t)
        = Option.map (fun x => c :: x) (unesc t)
    simp only [hval]

theorem unesc_escBytes : ∀ s : List Nat, unesc (escBytes s) = some s := by
  intro s
  induction s with
  | nil => rfl
  | cons c r ih =>
    have h0 : escBytes (c :: r) = escByte c ++ escBytes r := by
      simp [escBytes]
    rw [h0, unesc_escByte, ih]
    rfl

/-! ### Two- and three-digit zero-padded rendering, as the claim states it -/

/-- Exactly-two-digit zero-padded decimal (claim-side form). -/
def twoDigits (v : Nat) : List Nat := padZero 2 (decDigits v)

/-- Exactly-three-digit zero-padded decimal (claim-side form). -/
def threeDigits (v : Nat) : List Nat := padZero 3 (decDigits v)

set_option maxRecDepth 8000 in
theorem int2bytes_eq_twoDigits : ∀ v, v < 100 → int2bytes v = twoDigits v := by decide

set_option maxRecDepth 8000 in
theorem twoDigits_len : ∀ v, v < 100 → (twoDigits v).length = 2 := by decide

set_option maxRecDepth 8000 in
theorem threeDigits_len : ∀ v, v < 1000 → (threeDigits v).length = 3 := by decide

theorem intBytes_natCast (n : Nat) : intBytes (n : Int) = decDigits n := by
  unfold intBytes
  have h : ¬((n : Int) < 0) := by omega
  simp [h]

/-! ### RawMap structure lemmas -/

theorem length_append_vl : ∀ (l r : ValList),
    (ValList.append l r).length = l.length + r.length
  | .nil, r => by
    show r.length = ValList.length .nil + r.length
    simp [ValList.length]
  | .cons v vs, r => by
    show (ValList.cons v (vs.append r)).length = (ValList.cons v vs).length + r.length
    show 1 + (vs.append r).length = (1 + vs.length) + r.length
    rw [length_append_vl vs r]
    omega

theorem rawGo_append : ∀ (l : ValList) (b : Buffer) (i : Nat) (r : ValList),
    rawGo b i (ValList.append l r) = rawGo (rawGo b i l) (i + l.length) r
  | .nil, b, i, r => by
    show rawGo b i r = rawGo (rawGo b i .nil) (i + ValList.length .nil) r
    have h0 : rawGo b i ValList.nil = b := rfl
    rw [h0]
    show rawGo b i r = rawGo b (i + 0) r
    rw [Nat.add_zero]
  | .cons v vs, b, i, r => by
    have ha : ValList.append (ValList.cons v vs) r = ValList.cons v (vs.append r) := rfl
    have he1 : rawGo b i (ValList.cons v (vs.append r))
        = if i % 2 = 0 then rawGo (colonB (quote b (S v))) (i + 1) (vs.append r)
          else rawGo (scalar b v) (i + 1) (vs.append r) := rfl
    have he2 : rawGo b i (ValList.cons v vs)
        = if i % 2 = 0 then rawGo (colonB (quote b (S v))) (i + 1) vs
          else rawGo (scalar b v) (i + 1) vs := rfl
    have hlen : i + (ValList.cons v vs).length = (i + 1) + vs.length := by
      show i + (1 + vs.length) = (i + 1) + vs.length
      omega
    rw [ha, he1, he2, hlen]
    by_cases hi : i % 2 = 0
    · rw [if_pos hi, if_pos hi, rawGo_append vs (colonB (quote b (S v))) (i + 1) r]
    · rw [if_neg hi, if_neg hi, rawGo_append vs (scalar b v) (i + 1) r]

/-! ## The claims -/

/-- Claim C1: in every composition of a single log line (any sequence of
buffer operations run against a fresh pool buffer), every stream write
that happens before release occurs while the buffer holds the output
lock — mid-composition the trace is either empty (unlocked, nothing
written early) or a single `lockAcq` (the first early flush) followed only
by stream writes (the lock held continuously) — and after `release`
(`unlock`, which flushes the final remainder and releases the lock) the
complete trace is either at most one write with no lock traffic, or
`lockAcq`, writes only, and a final `lockRel`. -/
theorem line_lock_protocol (acts : List Act) :
    TraceInv (runActs newBuffer acts) ∧
    goodTrace (unlock (runActs newBuffer acts)).trace = true :=
  ⟨runActs_inv acts newBuffer newBuffer_inv,
    unlock_goodTrace _ (runActs_inv acts newBuffer newBuffer_inv)⟩

/-- Claim C2: the escaper emits, for each input byte in order, exactly the
replacement described by the specification — bytes at or above 0x20 other
than `"` and `\` (hence also all bytes at or above 0x80) unchanged, the
seven two-character escapes, and `\u00XX` with two lowercase hex digits
for every other byte below 0x20. -/
theorem escape_per_byte (b : Buffer) (s : List Nat) (hs : ∀ c ∈ s, c < 256) :
    emitted (escape b s) = emitted b ++ cat (s.map escSpecByte) := by
  rw [escape_emitted, escBytes]
  have hmap : s.map escByte = s.map escSpecByte := by
    revert hs
    induction s with
    | nil => intro _; rfl
    | cons c r ih =>
      intro hs
      rw [List.map_cons, List.map_cons,
        escByte_eq_spec c (hs c (List.mem_cons_self c r)),
        ih (fun d hd => hs d (List.mem_cons_of_mem c hd))]
  rw [hmap]

/-- Witness for C2 at a concrete input mixing a plain byte, the quote, the
backslash, a named control, an unnamed control, and a high byte. -/
theorem escape_per_byte_witness :
    (∀ c ∈ ([97, 34, 92, 10, 7, 200] : List Nat), c < 256) ∧
    emitted (escape newBuffer [97, 34, 92, 10, 7, 200])
      = emitted newBuffer ++ cat (([97, 34, 92, 10, 7, 200] : List Nat).map escSpecByte) :=
  ⟨by decide, escape_per_byte newBuffer [97, 34, 92, 10, 7, 200] (by decide)⟩

/-- Claim C3: a nil or empty ordered map given to the scalar encoder emits
nothing and leaves the whole buffer state unchanged; as a pair's value the
already-emitted key and colon stand, the pending delimiter stays empty,
and the next quoted key follows the colon immediately, with no value and
no comma in between. -/
theorem empty_amap_skip (b : Buffer) (k k2 : List Nat) (vs : ValList) :
    scalar b (Val.vamap [] vs) = b ∧
    scalar b Val.vamapNil = b ∧
    pairB b k (Val.vamap [] vs) = colonB (quote b k) ∧
    (pairB b k (Val.vamap [] vs)).delim = [] ∧
    emitted (quote (pairB b k (Val.vamap [] vs)) k2)
      = emitted b ++ b.delim ++ [34] ++ escBytes k ++ [34] ++ [58]
        ++ [34] ++ escBytes k2 ++ [34] := by
  have h2 : pairB b k (Val.vamap [] vs) = colonB (quote b k) := by
    show scalar (colonB (quote b k)) (Val.vamap [] vs) = colonB (quote b k)
    cases vs <;> rfl
  refine ⟨by cases vs <;> rfl, rfl, h2, by rw [h2]; rfl, ?_⟩
  rw [h2, quote_emitted, colonB_emitted, colonB_delim, quote_emitted]
  simp

set_option maxRecDepth 40000 in
/-- Claim C4 counterexample: encoding the ordered map with entries
`a ↦ 1` and `b ↦ "x\"y"` does not produce the claimed
`{"a":1,"b":"x\"y"}`, because the delimiter between completed values is
not the single character `,`. -/
theorem amap_comma_counterexample :
    emitted (scalar newBuffer (Val.vamap [[97], [98]]
        (ValList.cons (Val.vint 1) (ValList.cons (Val.vstr [120, 34, 121]) ValList.nil))))
      ≠ [123, 34, 97, 34, 58, 49, 44, 34, 98, 34, 58, 34, 120, 92, 34, 121, 34, 125] := by
  decide

set_option maxRecDepth 40000 in
/-- Claim C4 as amended: the delimiter between completed values is the
two bytes `", "` (`const comma = ", "`), so the map with entries `a ↦ 1`
and `b ↦ "x\"y"` encodes, from an empty pending delimiter, to exactly
`{"a":1, "b":"x\"y"}` (comma and space between the pairs). -/
theorem amap_comma_amended :
    comma = [44, 32] ∧
    emitted (scalar newBuffer (Val.vamap [[97], [98]]
        (ValList.cons (Val.vint 1) (ValList.cons (Val.vstr [120, 34, 121]) ValList.nil))))
      = [123, 34, 97, 34, 58, 49, 44, 32, 34, 98, 34, 58, 34, 120, 92, 34, 121, 34, 125] :=
  ⟨rfl, by decide⟩

/-- Claim C5 counterexample: a line of 16351 bytes — within the
16384-byte scratch capacity — whose composition nevertheless acquires the
output lock and reaches the stream in two writes, because `scalar`
demands 64 bytes of headroom before encoding its value. -/
theorem single_write_counterexample :
    (emitted (runActs newBuffer [Act.wstrs [List.replicate 16350 97],
        Act.scalarA (Val.vint 1)])).length ≤ scratchCap ∧
    (unlock (runActs newBuffer [Act.wstrs [List.replicate 16350 97],
        Act.scalarA (Val.vint 1)])).trace
      = [Ev.lockAcq, Ev.wr (List.replicate 16350 97), Ev.wr [49], Ev.lockRel] := by
  suffices h : ∀ L : List Nat, L.length = 16350 →
      (emitted (runActs newBuffer [Act.wstrs [L], Act.scalarA (Val.vint 1)])).length
          ≤ scratchCap ∧
        (unlock (runActs newBuffer [Act.wstrs [L], Act.scalarA (Val.vint 1)])).trace
          = [Ev.lockAcq, Ev.wr L, Ev.wr [49], Ev.lockRel] by
    exact h (List.replicate 16350 97) (List.length_replicate 16350 97)
  intro L hL
  have h1 : runActs newBuffer [Act.wstrs [L], Act.scalarA (Val.vint 1)]
      = scalar (write1 newBuffer L) (Val.vint 1) := rfl
  have hb1 : write1 newBuffer L = Buffer.mk scratchCap L [] false [] := by
    unfold write1 newBuffer
    simp [scratchCap, hL]
  have hbeg : begScalar (Buffer.mk scratchCap L [] false [])
      = Buffer.mk scratchCap [] [] true [Ev.lockAcq, Ev.wr L] := by
    unfold begScalar ensureRoom write1 lock
    simp [scratchCap, hL]
  have hsc : scalar (Buffer.mk scratchCap L [] false []) (Val.vint 1)
      = Buffer.mk scratchCap [49] comma true [Ev.lockAcq, Ev.wr L] := by
    have h0 : scalar (Buffer.mk scratchCap L [] false []) (Val.vint 1)
        = endScalar { begScalar (Buffer.mk scratchCap L [] false []) with
            buf := (begScalar (Buffer.mk scratchCap L [] false [])).buf
              ++ intBytes 1 } := rfl
    rw [h0, hbeg]
    rfl
  have hun : unlock (Buffer.mk scratchCap [49] comma true [Ev.lockAcq, Ev.wr L])
      = Buffer.mk scratchCap [] comma false
          [Ev.lockAcq, Ev.wr L, Ev.wr [49], Ev.lockRel] := by
    unfold unlock
    simp
  constructor
  · rw [h1, hb1, hsc]
    simp [emitted, Ev.bytes, scratchCap, hL, cat]
  · rw [h1, hb1, hsc, hun]

/-- Claim C5 as amended: a line whose total byte length stays at least 64
bytes below the scratch capacity (the headroom `scalar` reserves) is
flushed by exactly one stream write, issued at release time, and its
composition never touches the output lock (the trace holds nothing but
that single write). -/
theorem single_write_fast_path (acts : List Act)
    (hfit : (emitted (runActs newBuffer acts)).length + 64 ≤ scratchCap)
    (hne : 0 < (emitted (runActs newBuffer acts)).length) :
    (unlock (runActs newBuffer acts)).trace
      = [Ev.wr (emitted (runActs newBuffer acts))] := by
  have hp : Pristine (runActs newBuffer acts) :=
    runActs_pure acts newBuffer ⟨rfl, rfl⟩ hfit
  have hbuf : emitted (runActs newBuffer acts) = (runActs newBuffer acts).buf :=
    pristine_emitted _ hp
  rw [hbuf] at hne ⊢
  exact unlock_pristine_trace _ hp hne

/-- Witness for the amended C5 at a concrete two-byte line. -/
theorem single_write_fast_path_witness :
    (unlock (runActs newBuffer [Act.wstrs [[104, 105]]])).trace
      = [Ev.wr (emitted (runActs newBuffer [Act.wstrs [[104, 105]]]))] :=
  single_write_fast_path [Act.wstrs [[104, 105]]] (by decide) (by decide)

/-- Claim C6: escaping and then standard JSON string un-escaping yields
the original input, for every byte string (in particular the escaper is
injective). -/
theorem escape_unescape_roundtrip (s : List Nat) :
    emitted (escape newBuffer s) = escBytes s ∧ unesc (escBytes s) = some s := by
  constructor
  · rw [escape_emitted]
    rfl
  · exact unesc_escBytes s

/-- Claim C7: the check at the top of `buffer.scalar` (`ensureRoom`)
guarantees 64 bytes of free scratch headroom — locking and flushing if
needed — and the in-place numeric formatting that follows (at most 20
bytes for any 64-bit integer) therefore never writes past the scratch
capacity. -/
theorem scalar_headroom (b : Buffer) (i : Int) (h64 : 64 ≤ b.cap)
    (hi : i.natAbs < 2 ^ 63) :
    (ensureRoom b).buf.length + 64 ≤ b.cap ∧
    (scalar b (Val.vint i)).buf.length ≤ b.cap := by
  refine ⟨ensureRoom_headroom b h64, ?_⟩
  have h0 : (scalar b (Val.vint i)).buf = (begScalar b).buf ++ intBytes i := rfl
  rw [h0, List.length_append]
  have hX : 64 ≤ ({ write1 b b.delim with delim := ([] : List Nat) } : Buffer).cap := by
    show 64 ≤ (write1 b b.delim).cap
    rw [write1_cap]
    exact h64
  have h1 := ensureRoom_headroom { write1 b b.delim with delim := ([] : List Nat) } hX
  have h1b : (begScalar b).buf.length + 64 ≤ b.cap := by
    have hc : ({ write1 b b.delim with delim := ([] : List Nat) } : Buffer).cap = b.cap := by
      show (write1 b b.delim).cap = b.cap
      exact write1_cap b b.delim
    rw [hc] at h1
    exact h1
  have h2 := intBytes_len i hi
  omega

/-- Witness for C7 on a fresh pool buffer and a small integer. -/
theorem scalar_headroom_witness :
    64 ≤ newBuffer.cap ∧ (5 : Int).natAbs < 2 ^ 63 ∧
    ((ensureRoom newBuffer).buf.length + 64 ≤ newBuffer.cap ∧
      (scalar newBuffer (Val.vint 5)).buf.length ≤ newBuffer.cap) :=
  ⟨by decide, by decide, scalar_headroom newBuffer 5 (by decide) (by decide)⟩

/-- Claim C8: a Flat Alternating List encodes as a JSON object taking
successive elements as key then value (the byte-level shape is the
`encRaw` mirror: quoted text of each even-indexed element, a colon, then
the odd-indexed element as a value), and an odd-length list encodes
exactly as if a `null` value had been appended for the final key. -/
theorem rawmap_object (b : Buffer) (l : ValList) :
    emitted (scalar b (Val.vrawmap l)) = emitted b ++ encV b.delim (Val.vrawmap l) ∧
    (l.length % 2 = 1 →
      scalar b (Val.vrawmap l)
        = scalar b (Val.vrawmap (l.append (ValList.cons Val.vnull ValList.nil)))) := by
  refine ⟨(scalar_spec b (Val.vrawmap l)).1, ?_⟩
  intro hodd
  have hlen : (l.append (ValList.cons Val.vnull ValList.nil)).length = l.length + 1 := by
    rw [length_append_vl]
    rfl
  have hgen : ∀ m : ValList, scalar b (Val.vrawmap m)
      = endScalar (closeB (if m.length % 2 = 1
          then scalarNullV (rawGo (openB (begScalar b) [123]) 0 m)
          else rawGo (openB (begScalar b) [123]) 0 m) [125]) := fun m => rfl
  have hX : scalar b (Val.vrawmap l)
      = endScalar (closeB (scalarNullV (rawGo (openB (begScalar b) [123]) 0 l)) [125]) := by
    rw [hgen l, if_pos hodd]
  have hY : scalar b (Val.vrawmap (l.append (ValList.cons Val.vnull ValList.nil)))
      = endScalar (closeB (rawGo (openB (begScalar b) [123]) 0
          (l.append (ValList.cons Val.vnull ValList.nil))) [125]) := by
    rw [hgen (l.append (ValList.cons Val.vnull ValList.nil)),
      if_neg (by rw [hlen]; omega)]
  have htail : rawGo (openB (begScalar b) [123]) 0
      (l.append (ValList.cons Val.vnull ValList.nil))
      = scalarNullV (rawGo (openB (begScalar b) [123]) 0 l) := by
    rw [rawGo_append l (openB (begScalar b) [123]) 0 (ValList.cons Val.vnull ValList.nil)]
    have hpar : ¬((0 + l.length) % 2 = 0) := by omega
    have he : rawGo (rawGo (openB (begScalar b) [123]) 0 l) (0 + l.length)
        (ValList.cons Val.vnull ValList.nil)
        = if (0 + l.length) % 2 = 0
          then rawGo (colonB (quote (rawGo (openB (begScalar b) [123]) 0 l)
            (S Val.vnull))) (0 + l.length + 1) ValList.nil
          else rawGo (scalar (rawGo (openB (begScalar b) [123]) 0 l) Val.vnull)
            (0 + l.length + 1) ValList.nil := rfl
    rw [he, if_neg hpar]
    rfl
  rw [hX, hY, htail]

/-- Witness for the odd-length part of C8 at a one-element list. -/
theorem rawmap_object_witness :
    scalar newBuffer (Val.vrawmap (ValList.cons (Val.vstr [107]) ValList.nil))
      = scalar newBuffer (Val.vrawmap ((ValList.cons (Val.vstr [107])
          ValList.nil).append (ValList.cons Val.vnull ValList.nil))) :=
  (rawmap_object newBuffer (ValList.cons (Val.vstr [107]) ValList.nil)).2 (by decide)

/-- Claim C9: the timestamp renders as a quoted
`YYYY-MM-DD HH:MM:SS.mmmZ` — the year at its natural decimal width, the
calendar and clock fields as exactly two zero-padded digits each, the
milliseconds as exactly three zero-padded digits, and a literal `Z`
before the closing quote — for any in-range UTC instant, and the pending
delimiter becomes `comma`. -/
theorem timestamp_format (b : Buffer) (t : UTCTime) (hmo : t.month ≤ 12)
    (hday : t.day ≤ 31) (hh : t.hour ≤ 23) (hmin : t.minute ≤ 59)
    (hsec : t.second ≤ 59) (hns : t.nsec < 1000000000) :
    emitted (timestamp b t) = emitted b ++ [34] ++ decDigits t.year ++ [45]
      ++ twoDigits t.month ++ [45] ++ twoDigits t.day ++ [32] ++ twoDigits t.hour
      ++ [58] ++ twoDigits t.minute ++ [58] ++ twoDigits t.second ++ [46]
      ++ threeDigits (t.nsec / 1000000) ++ [90, 34]
    ∧ (twoDigits t.month).length = 2 ∧ (twoDigits t.day).length = 2
    ∧ (twoDigits t.hour).length = 2 ∧ (twoDigits t.minute).length = 2
    ∧ (twoDigits t.second).length = 2
    ∧ (threeDigits (t.nsec / 1000000)).length = 3
    ∧ (timestamp b t).delim = comma := by
  have hms : t.nsec / 1000000 < 1000 := by omega
  refine ⟨?_, twoDigits_len _ (by omega), twoDigits_len _ (by omega),
    twoDigits_len _ (by omega), twoDigits_len _ (by omega), twoDigits_len _ (by omega),
    threeDigits_len _ hms, rfl⟩
  rw [timestamp_emitted, intBytes_natCast,
    int2bytes_eq_twoDigits _ (by omega : t.month < 100),
    int2bytes_eq_twoDigits _ (by omega : t.day < 100),
    int2bytes_eq_twoDigits _ (by omega : t.hour < 100),
    int2bytes_eq_twoDigits _ (by omega : t.minute < 100),
    int2bytes_eq_twoDigits _ (by omega : t.second < 100),
    intBytes_natCast]
  rfl

/-- Witness for C9 at the spec's concrete instant
`2024-03-07T08:09:10.123Z`, rendering `"2024-03-07 08:09:10.123Z"`. -/
theorem timestamp_format_witness :
    emitted (timestamp newBuffer ⟨2024, 3, 7, 8, 9, 10, 123000000⟩)
      = [34, 50, 48, 50, 52, 45, 48, 51, 45, 48, 55, 32, 48, 56, 58, 48, 57, 58,
         49, 48, 46, 49, 50, 51, 90, 34] := by
  rw [(timestamp_format newBuffer ⟨2024, 3, 7, 8, 9, 10, 123000000⟩ (by decide)
    (by decide) (by decide) (by decide) (by decide) (by decide)).1]
  decide

/-- Claim C10: `unlock` (the release path) only flushes the byte cursor
(emptying it, with the emitted byte stream unchanged) and clears the lock
flag; the pending delimiter and the capacity are untouched, so a buffer
returned to the pool still carries the last line's final delimiter. -/
theorem unlock_frame (b : Buffer) :
    (unlock b).delim = b.delim ∧ (unlock b).cap = b.cap ∧ (unlock b).buf = [] ∧
    (unlock b).locked = false ∧ emitted (unlock b) = emitted b := by
  unfold unlock
  by_cases hb : 0 < b.buf.length <;> by_cases hl : b.locked <;>
    simp_all [emitted, Ev.bytes, List.length_eq_zero]

end Lager
